import Mathlib

/-!
A verification development for the gocloud-bucket block storage of the
virtual-folder feature (package `blockstorage` plus its pull/scan driver).

Modelling conventions.
* Go byte strings (object keys, hashes as map keys, participant ids, tag
  names) are `List Nat`, one element per byte.
* The object bucket is a list of objects `BucketObj` (key, modification
  time, body).  A listing under a prefix is the filtered list sorted
  byte-lexicographically, which is what every supported object store
  (S3, GCS, Azure, fileblob, memblob) returns.
* Time is `Int` seconds; `time.Since(m)` is `now - m`.
* Fallible bucket calls are driven by a `StorageEnv` of failure flags;
  Go `error` returns become `Option`/outcome values, `log.Fatal`/`panic`
  become a distinguished `fatal`/`panicked` outcome.
-/

/-- Byte-lexicographic strict order on byte strings, as an executable
Boolean.  This is the order in which object stores list keys. -/
def lexLt : List Nat → List Nat → Bool
  | [], [] => false
  | [], _ :: _ => true
  | _ :: _, [] => false
  | a :: as, b :: bs => if a < b then true else if a = b then lexLt as bs else false

/-- Byte-lexicographic order, non-strict. -/
def lexLe (a b : List Nat) : Bool := !(lexLt b a)

/-- Executable prefix test on byte strings (Go `strings.HasPrefix`). -/
def isPre : List Nat → List Nat → Bool
  | [], _ => true
  | _ :: _, [] => false
  | a :: as, b :: bs => a = b && isPre as bs

/-- Go `strings.CutPrefix(s, p)` keeping only the remainder: the suffix when
`p` is a prefix of `s`, otherwise `s` unchanged (the callers below ignore the
`ok` flag in exactly this way). -/
def goCutPre (p s : List Nat) : List Nat := if isPre p s then s.drop p.length else s

/-- Go `strings.CutPrefix(s, p)` with its `ok` flag, as an `Option`. -/
def cutPreOpt (p s : List Nat) : Option (List Nat) :=
  if isPre p s then some (s.drop p.length) else none

/-- Go `strings.Split(s, ".")`: split at every `.` byte (46); always returns
at least one (possibly empty) element. -/
def splitOnDot : List Nat → List (List Nat)
  | [] => [[]]
  | c :: rest =>
    if c = 46 then [] :: splitOnDot rest
    else
      match splitOnDot rest with
      | [] => [[c]]
      | p :: ps => (c :: p) :: ps

/-- Modelled from the spec: the hash codec of `lib/hashutil` is not among the
provided sources; the spec fixes it as the stable, case-fixed hex character
mapping (`hex(H)`), i.e. lowercase hex.  One hex digit: values 0-9 map to
bytes 48-57 (`0`-`9`), values 10-15 to bytes 97-102 (`a`-`f`). -/
def hexDigitByte (n : Nat) : Nat := if n < 10 then 48 + n else 87 + n

/-- Modelled from the spec: hex encoding of one byte, high nybble first. -/
def hexByte (b : Nat) : List Nat := [hexDigitByte (b / 16), hexDigitByte (b % 16)]

/-- Modelled from the spec: `hashutil.HashToStringMapKey` — hex encoding of a
byte string. -/
def hexEncode : List Nat → List Nat
  | [] => []
  | b :: r => hexByte b ++ hexEncode r

/-- Modelled from the spec: the value of one hex digit byte (invalid bytes
give an unspecified value, matching the `NoError` decoder which swallows
errors). -/
def fromHexDigit (c : Nat) : Nat := if c < 58 then c - 48 else c - 87

/-- Modelled from the spec: `hashutil.StringMapKeyToHashNoError` — hex
decoding, two digits per byte, ignoring a trailing odd digit. -/
def hexDecode : List Nat → List Nat
  | c1 :: c2 :: r => (16 * fromHexDigit c1 + fromHexDigit c2) :: hexDecode r
  | _ => []

/-- `HashToStringMapKey` under its source name. -/
def HashToStringMapKey (hash : List Nat) : List Nat := hexEncode hash

/-- `StringMapKeyToHashNoError` under its source name. -/
def StringMapKeyToHashNoError (s : List Nat) : List Nat := hexDecode s

/-- `BlockDataSubFolder = "blocks"` (bytes of `b l o c k s`). -/
def BlockDataSubFolder : List Nat := [98, 108, 111, 99, 107, 115]

/-- `MetaDataSubFolder = "meta"` (bytes of `m e t a`). -/
def MetaDataSubFolder : List Nat := [109, 101, 116, 97]

/-- `BLOCK_USE_TAG = "used-by"` (bytes of `u s e d - b y`). -/
def BLOCK_USE_TAG : List Nat := [117, 115, 101, 100, 45, 98, 121]

/-- `BLOCK_DELETE_TAG = "deletion-by"` (bytes of `d e l e t i o n - b y`). -/
def BLOCK_DELETE_TAG : List Nat := [100, 101, 108, 101, 116, 105, 111, 110, 45, 98, 121]

/-- The `.` separator byte used between key, tag kind and participant id. -/
def tagSeparator : Nat := 46

/-- The `/` byte. -/
def slashByte : Nat := 47

/-- The common key prefix `"blocks/"` used by the enumeration engine. -/
def folderPre : List Nat := BlockDataSubFolder ++ [slashByte]

/-- `getBlockStringKey`: `BlockDataSubFolder + "/" + HashToStringMapKey(hash)`. -/
def getBlockStringKey (hash : List Nat) : List Nat := folderPre ++ HashToStringMapKey hash

/-- `getMetadataStringKey`: `MetaDataSubFolder + "/" + name`. -/
def getMetadataStringKey (name : List Nat) : List Nat := MetaDataSubFolder ++ [slashByte] ++ name

/-- `getATag`: `hashKey + "." + tag + "." + hm.myDeviceId` (the receiver's
device id is passed explicitly). -/
def getATag (hash tag myDeviceId : List Nat) : List Nat :=
  getBlockStringKey hash ++ tagSeparator :: (tag ++ tagSeparator :: myDeviceId)

/-- `TIME_CONSTANT_BASE`.  Modelled from the spec: the constant's defining
file is not among the provided sources; the spec fixes it at one minute
(expressed here in seconds). -/
def TIME_CONSTANT_BASE : Int := 60

/-- `HashBlockState`: the per-block derived state accumulated by the
enumeration engine. -/
structure HashBlockState where
  dataExists : Bool
  reservedByMe : Bool
  reservedByOthers : Bool
  deletionPending : Bool
deriving DecidableEq, Repr

/-- The Go zero value of `HashBlockState`. -/
def HashBlockState.empty : HashBlockState := ⟨false, false, false, false⟩

/-- Modelled from the spec: the file defining the `HashBlockState` predicates
is not among the provided sources; the spec fixes
`IsAvailable ⇔ dataExists ∧ ¬deletionPending`. -/
def HashBlockState.IsAvailable (s : HashBlockState) : Bool :=
  s.dataExists && !s.deletionPending

/-- Modelled from the spec: `IsAvailableAndFree ⇔ IsAvailable ∧ ¬reservedByMe
∧ ¬reservedByOthers`. -/
def HashBlockState.IsAvailableAndFree (s : HashBlockState) : Bool :=
  s.IsAvailable && !s.reservedByMe && !s.reservedByOthers

/-- Modelled from the spec: `IsAvailableAndReservedByMe ⇔ IsAvailable ∧
reservedByMe`. -/
def HashBlockState.IsAvailableAndReservedByMe (s : HashBlockState) : Bool :=
  s.IsAvailable && s.reservedByMe

/-- `HashAndState`: one emitted enumeration record; `hash` is the decoded
byte hash (`StringMapKeyToHashNoError(currentHash)`). -/
structure HashAndState where
  hash : List Nat
  state : HashBlockState
deriving DecidableEq, Repr

/-- One object of the bucket: key, modification time and body bytes (tags
have empty bodies). -/
structure BucketObj where
  key : List Nat
  modTime : Int
  data : List Nat
deriving DecidableEq, Repr

/-- The bucket's content.  Order is irrelevant: listings sort. -/
abbrev Bucket := List BucketObj

/-- Insert one object into a key-sorted list (ordering step of a listing). -/
def insertByKey (o : BucketObj) : List BucketObj → List BucketObj
  | [] => [o]
  | x :: xs => if lexLt x.key o.key then x :: insertByKey o xs else o :: x :: xs

/-- Sort objects by key (insertion sort).  Object stores return listings in
byte-lexicographic key order; this realises that contract in the model. -/
def sortKeys : List BucketObj → List BucketObj
  | [] => []
  | x :: xs => insertByKey x (sortKeys xs)

/-- The full listing of the bucket under a key prefix, sorted by key: the
concatenation of all pages `bucket.ListPage` returns for that prefix. -/
def bucketListing (bkt : Bucket) (pre : List Nat) : List BucketObj :=
  sortKeys (bkt.filter (fun e => isPre pre e.key))

/-- `HashBlockStorageMapBuilder`: the single-pass streaming state builder.
The callback is modelled by accumulating the emitted records in order. -/
structure HashBlockStorageMapBuilder where
  ownName : List Nat
  currentHash : List Nat
  currentState : HashBlockState
  emitted : List HashAndState
deriving DecidableEq, Repr

/-- `NewHashBlockStorageMapBuilder`. -/
def NewHashBlockStorageMapBuilder (ownName : List Nat) : HashBlockStorageMapBuilder :=
  ⟨ownName, [], HashBlockState.empty, []⟩

namespace HashBlockStorageMapBuilder

/-- `completeIfNextHash`: when the incoming hash differs from the current one,
emit the accumulated record (only if `dataExists`) and reset to the new hash.
The Go method always returns `false`, so the callers' early-return branch is
dead and the builder continues with the updated state. -/
def completeIfNextHash (b : HashBlockStorageMapBuilder) (hash : List Nat) :
    HashBlockStorageMapBuilder :=
  if hash = b.currentHash then b
  else
    let b1 :=
      if b.currentState.dataExists then
        { b with emitted :=
            b.emitted ++ [⟨StringMapKeyToHashNoError b.currentHash, b.currentState⟩] }
      else b
    { b1 with currentHash := hash, currentState := HashBlockState.empty }

/-- `addData`. -/
def addData (b : HashBlockStorageMapBuilder) (hash : List Nat) :
    HashBlockStorageMapBuilder :=
  let b1 := b.completeIfNextHash hash
  { b1 with currentState := { b1.currentState with dataExists := true } }

/-- `addUse`. -/
def addUse (b : HashBlockStorageMapBuilder) (hash who : List Nat) :
    HashBlockStorageMapBuilder :=
  let b1 := b.completeIfNextHash hash
  if b1.currentState.IsAvailable then
    if who = b1.ownName then
      { b1 with currentState := { b1.currentState with reservedByMe := true } }
    else
      { b1 with currentState := { b1.currentState with reservedByOthers := true } }
  else b1

/-- `addDelete`. -/
def addDelete (b : HashBlockStorageMapBuilder) (hash : List Nat) :
    HashBlockStorageMapBuilder :=
  let b1 := b.completeIfNextHash hash
  { b1 with currentState := { b1.currentState with deletionPending := true } }

/-- `close`: force the flush of the last element by pretending the empty hash
arrives next. -/
def close (b : HashBlockStorageMapBuilder) : HashBlockStorageMapBuilder :=
  b.completeIfNextHash []

end HashBlockStorageMapBuilder

/-- The body of `IterateBlocksInternal`'s page loop for one listed object:
strip `"blocks/"`, split at `.`, and dispatch to the builder.  A `used-by`
tag needs at least three elements; a `deletion-by` tag is dispatched only
when its modification time is within `TIME_CONSTANT_BASE` of now. -/
def processObj (now : Int) (b : HashBlockStorageMapBuilder) (obj : BucketObj) :
    HashBlockStorageMapBuilder :=
  let hashString := goCutPre folderPre obj.key
  let elements := splitOnDot hashString
  if elements.length ≤ 1 then b.addData hashString
  else
    let hs := elements.headI
    let tp := elements.getD 1 []
    if tp = BLOCK_USE_TAG ∧ 3 ≤ elements.length then b.addUse hs (elements.getD 2 [])
    else if tp = BLOCK_DELETE_TAG then
      if now - obj.modTime < TIME_CONSTANT_BASE then b.addDelete hs else b
    else b

/-- `IterateBlocksInternal`: list everything under `"blocks/" + pre` (all
pages, in key order), feed each object through the builder, close, and
return the emitted records in callback order. -/
def IterateBlocksInternal (ownName : List Nat) (now : Int) (bkt : Bucket)
    (pre : List Nat) : List HashAndState :=
  let entries := bucketListing bkt (folderPre ++ pre)
  ((entries.foldl (processObj now) (NewHashBlockStorageMapBuilder ownName)).close).emitted

/-- `IterateBlocks`: 256 shards by first hash byte, each shard running
`IterateBlocksInternal` on the two-hex-digit prefix of its byte; the ordered
channel-of-channels makes the consumer drain the shards strictly in shard
order, so the merged output is the concatenation of the shard outputs
regardless of how the producers interleave. -/
def IterateBlocks (ownName : List Nat) (now : Int) (bkt : Bucket) :
    List HashAndState :=
  ((List.range 256).map
    (fun i => IterateBlocksInternal ownName now bkt (HashToStringMapKey [i]))).flatten

/-- `GetBlockHashState`: run the single-prefix enumeration over the hash's own
key prefix; the callback overwrites `blockState`, so the result is the last
emitted record's state, or the zero state when nothing is emitted. -/
def GetBlockHashState (ownName : List Nat) (now : Int) (bkt : Bucket)
    (hash : List Nat) : HashBlockState :=
  (((IterateBlocksInternal ownName now bkt (HashToStringMapKey hash)).map
      HashAndState.state).getLast?).getD HashBlockState.empty

/-- `bucket.WriteAll`: object-store put semantics — replace any object with
the same key, stamping the current time. -/
def writeAll (bkt : Bucket) (key : List Nat) (d : List Nat) (now : Int) : Bucket :=
  bkt.filter (fun e => e.key ≠ key) ++ [⟨key, now, d⟩]

/-- `bucket.Delete` (ignoring its error return, which no modelled outcome
depends on). -/
def bucketDeleteKey (bkt : Bucket) (key : List Nat) : Bucket :=
  bkt.filter (fun e => e.key ≠ key)

/-- `bucket.Exists`. -/
def bucketExists (bkt : Bucket) (key : List Nat) : Bool :=
  bkt.any (fun e => e.key = key)

/-- `bucket.ReadAll`: the body of the object with the key, if present. -/
def readAll (bkt : Bucket) (key : List Nat) : Option (List Nat) :=
  (bkt.find? (fun e => e.key = key)).map BucketObj.data

/-- Injected transient outcomes of the bucket driver's calls: whether a put,
a listing, or a body read fails during the modelled operation. -/
structure StorageEnv where
  putFails : Bool
  listFails : Bool
  readFails : Bool
deriving DecidableEq, Repr

/-- `putATag`: refuse on a read-only handle; unless `updateTime`, skip the
write when the tag already exists (so its modification time is preserved);
otherwise write the zero-byte tag object.  `none` is the error return. -/
def putATag (env : StorageEnv) (myDeviceId : List Nat) (now : Int) (bkt : Bucket)
    (hash tag : List Nat) (updateTime : Bool) : Option Bucket :=
  if myDeviceId = [] then none
  else if env.putFails then none
  else
    let hashDeviceTagKey := getATag hash tag myDeviceId
    if !updateTime ∧ bucketExists bkt hashDeviceTagKey then some bkt
    else some (writeAll bkt hashDeviceTagKey [] now)

/-- `removeATag`: refuse on a read-only handle, otherwise delete this
participant's tag object. -/
def removeATag (myDeviceId : List Nat) (bkt : Bucket) (hash tag : List Nat) :
    Option Bucket :=
  if myDeviceId = [] then none
  else some (bucketDeleteKey bkt (getATag hash tag myDeviceId))

/-- How one modelled write call ends: a normal return, an error return
(`err != nil` handed to the caller), or a process abort
(`log.Fatal` / `panic`). -/
inductive WriteOutcome
  | ok
  | errReturned
  | fatal
deriving DecidableEq, Repr

/-- `AnnounceDelete`: put the `deletion-by` tag, always refreshing its
modification time. -/
def AnnounceDelete (env : StorageEnv) (myDeviceId : List Nat) (now : Int)
    (bkt : Bucket) (hash : List Nat) : WriteOutcome × Bucket :=
  match putATag env myDeviceId now bkt hash BLOCK_DELETE_TAG true with
  | none => (.errReturned, bkt)
  | some b => (.ok, b)

/-- `DeAnnounceDelete`: remove the `deletion-by` tag. -/
def DeAnnounceDelete (myDeviceId : List Nat) (bkt : Bucket) (hash : List Nat) :
    WriteOutcome × Bucket :=
  match removeATag myDeviceId bkt hash BLOCK_DELETE_TAG with
  | none => (.errReturned, bkt)
  | some b => (.ok, b)

/-- `UncheckedDelete`: error return on a read-only handle, otherwise delete
the bare block object. -/
def UncheckedDelete (myDeviceId : List Nat) (bkt : Bucket) (hash : List Nat) :
    WriteOutcome × Bucket :=
  if myDeviceId = [] then (.errReturned, bkt)
  else (.ok, bucketDeleteKey bkt (getBlockStringKey hash))

/-- `ReserveAndSet`: on a read-only handle log a warning and return; else put
the `used-by` tag (a failure is `log.Panicf`), then write the block body. -/
def ReserveAndSet (env : StorageEnv) (myDeviceId : List Nat) (now : Int)
    (bkt : Bucket) (hash d : List Nat) : WriteOutcome × Bucket :=
  if myDeviceId = [] then (.ok, bkt)
  else
    match putATag env myDeviceId now bkt hash BLOCK_USE_TAG false with
    | none => (.fatal, bkt)
    | some b1 => (.ok, writeAll b1 (getBlockStringKey hash) d now)

/-- `DeleteReservation`: remove this participant's `used-by` tag; any error
from `removeATag` runs into `log.Fatal` followed by `panic`. -/
def DeleteReservation (myDeviceId : List Nat) (bkt : Bucket) (hash : List Nat) :
    WriteOutcome × Bucket :=
  match removeATag myDeviceId bkt hash BLOCK_USE_TAG with
  | none => (.fatal, bkt)
  | some b => (.ok, b)

/-- `GetMeta`: read the metadata object; an error (here: absence) returns
`(nil, false)`, modelled as `none`. -/
def GetMeta (bkt : Bucket) (name : List Nat) : Option (List Nat) :=
  readAll bkt (getMetadataStringKey name)

/-- `SetMeta`: on a read-only handle log a warning and return; otherwise
write the metadata object (its error return is discarded by the source). -/
def SetMeta (myDeviceId : List Nat) (now : Int) (bkt : Bucket)
    (name d : List Nat) : WriteOutcome × Bucket :=
  if myDeviceId = [] then (.ok, bkt)
  else (.ok, writeAll bkt (getMetadataStringKey name) d now)

/-- `DeleteMeta`: on a read-only handle log a warning and return; otherwise
delete the metadata object. -/
def DeleteMeta (myDeviceId : List Nat) (bkt : Bucket) (name : List Nat) :
    WriteOutcome × Bucket :=
  if myDeviceId = [] then (.ok, bkt)
  else (.ok, bucketDeleteKey bkt (getMetadataStringKey name))

/-- Digits of a decimal number, Go-style (`strconv.Atoi` digit loop). -/
def digitsToNat (s : List Nat) : Option Nat :=
  s.foldl
    (fun acc c =>
      match acc with
      | none => none
      | some n => if 48 ≤ c ∧ c ≤ 57 then some (10 * n + (c - 48)) else none)
    (some 0)

/-- Go `strconv.Atoi`: optional sign then one or more decimal digits; `none`
is the error return.  (The 64-bit range check is not modelled; the hint
values involved are tiny.) -/
def Atoi (s : List Nat) : Option Int :=
  match s with
  | [] => none
  | c :: rest =>
    if c = 43 then (if rest = [] then none else (digitsToNat rest).map Int.ofNat)
    else if c = 45 then (if rest = [] then none else (digitsToNat rest).map (fun n => -(Int.ofNat n)))
    else (digitsToNat s).map Int.ofNat

/-- `"BlockCountHint"` as bytes. -/
def BlockCountHintName : List Nat := [66, 108, 111, 99, 107, 67, 111, 117, 110, 116, 72, 105, 110, 116]

/-- `GetBlockHashesCountHint`: read `meta/BlockCountHint`, parse as decimal;
a read or parse failure yields the minimum 100, and any smaller parsed value
is raised to 100. -/
def GetBlockHashesCountHint (bkt : Bucket) : Int :=
  match GetMeta bkt BlockCountHintName with
  | none => 100
  | some d =>
    match Atoi d with
    | none => 100
    | some hint => if hint < 100 then 100 else hint

/-- `"." + tag + "."`, the suffix pattern used by `reserveAndCheckExistence`. -/
def dotTagDot (tag : List Nat) : List Nat := tagSeparator :: (tag ++ [tagSeparator])

/-- The partition `reserveAndCheckExistence` builds from its listed page:
the bare data entry, the `used-by` participants and the fresh `deletion-by`
participants.  (The Go maps keyed by participant are kept as lists; only
emptiness and the data entry are ever consumed.) -/
structure RCEAcc where
  dataEntry : Option BucketObj
  uses : List (List Nat)
  deletes : List (List Nat)
deriving DecidableEq, Repr

/-- One page entry of `reserveAndCheckExistence`'s partition loop: an empty
suffix is the data object; a `.used-by.` suffix records the participant; a
`.deletion-by.` suffix records the participant only while fresh
(`time.Since(ModTime) < TIME_CONSTANT_BASE`); anything else is ignored. -/
def rceStep (hashKey : List Nat) (now : Int) (acc : RCEAcc) (e : BucketObj) : RCEAcc :=
  let suffix := goCutPre hashKey e.key
  if suffix = [] then { acc with dataEntry := some e }
  else
    match cutPreOpt (dotTagDot BLOCK_USE_TAG) suffix with
    | some deviceId => { acc with uses := acc.uses ++ [deviceId] }
    | none =>
      match cutPreOpt (dotTagDot BLOCK_DELETE_TAG) suffix with
      | some deviceId =>
        if now - e.modTime < TIME_CONSTANT_BASE then
          { acc with deletes := acc.deletes ++ [deviceId] }
        else acc
      | none => acc

/-- The one listed page (up to ten entries) `reserveAndCheckExistence`
examines for a hash. -/
def listPageForHash (bkt : Bucket) (hash : List Nat) : List BucketObj :=
  (bucketListing bkt (getBlockStringKey hash)).take 10

/-- The listing half of `reserveAndCheckExistence`: a failed listing returns
`(ok=false, retry=false)`; otherwise partition the page; any fresh
`deletion-by` forces `(false, retry=true)`; otherwise `ok` says whether the
bare data object was seen.  Returns (bucket, ok, retry). -/
def rceListPhase (env : StorageEnv) (now : Int) (bkt1 : Bucket)
    (hash : List Nat) : Bucket × Bool × Bool :=
  if env.listFails then (bkt1, false, false)
  else
    let page := listPageForHash bkt1 hash
    let acc := page.foldl (rceStep (getBlockStringKey hash) now) ⟨none, [], []⟩
    if acc.deletes ≠ [] then (bkt1, false, true)
    else if acc.dataEntry.isNone then (bkt1, false, false)
    else (bkt1, true, false)

/-- `reserveAndCheckExistence`: unless read-only, force the `used-by` tag
(an error returns `(ok=false, retry=false)`), then run the listing phase. -/
def reserveAndCheckExistence (env : StorageEnv) (myDeviceId : List Nat)
    (now : Int) (bkt : Bucket) (hash : List Nat) : Bucket × Bool × Bool :=
  if myDeviceId ≠ [] then
    match putATag env myDeviceId now bkt hash BLOCK_USE_TAG false with
    | none => (bkt, false, false)
    | some bkt1 => rceListPhase env now bkt1 hash
  else rceListPhase env now bkt hash

/-- How a modelled `ReserveAndGet` run ends: a normal `(data, ok)` return, a
panic on a failed body read, or fuel exhaustion while the retry loop is
still spinning (the Go loop would still be sleeping and retrying). -/
inductive RAGResult
  | ret (d : Option (List Nat)) (ok : Bool)
  | panicked
  | exhausted
deriving DecidableEq, Repr

/-- The retry loop of `ReserveAndGet`: reserve-and-check; on `retry`, sleep
one minute (`TIME_CONSTANT_BASE`) and start over; once settled, download the
body when asked (a read failure panics). -/
def reserveAndGetLoop (env : StorageEnv) (myDeviceId hash : List Nat)
    (downloadData : Bool) : Nat → Int → Bucket → RAGResult × Bucket
  | 0, _, bkt => (.exhausted, bkt)
  | Nat.succ fuel, now, bkt =>
    let r := reserveAndCheckExistence env myDeviceId now bkt hash
    if r.2.2 then
      reserveAndGetLoop env myDeviceId hash downloadData fuel (now + TIME_CONSTANT_BASE) r.1
    else if r.2.1 ∧ downloadData then
      if env.readFails then (.panicked, r.1)
      else
        match readAll r.1 (getBlockStringKey hash) with
        | none => (.panicked, r.1)
        | some d => (.ret (some d) true, r.1)
    else (.ret none r.2.1, r.1)

/-- `ReserveAndGet`: an empty hash returns `(nil, false)` immediately;
otherwise run the reserve/check/retry loop. -/
def ReserveAndGet (env : StorageEnv) (myDeviceId : List Nat) (fuel : Nat)
    (now : Int) (bkt : Bucket) (hash : List Nat) (downloadData : Bool) :
    RAGResult × Bucket :=
  if hash = [] then (.ret none false, bkt)
  else reserveAndGetLoop env myDeviceId hash downloadData fuel now bkt

/-- The externally visible effects of the reclamation pass over the scan
map: checked-delete requests and reservation deletions, in call order. -/
inductive CleanupAction
  | requestCheckedDelete (hash : List Nat)
  | deleteReservation (hash : List Nat)
deriving DecidableEq, Repr

/-- The hash a cleanup action concerns. -/
def cleanupActionHash : CleanupAction → List Nat
  | .requestCheckedDelete h => h
  | .deleteReservation h => h

/-- The loop body of `cleanupUnneededReservations` for one scan-map entry:
an `IsAvailableAndFree` block gets a checked delete; an
`IsAvailableAndReservedByMe` block still in `usedBlockHashes` is left alone,
otherwise its reservation is deleted and then a checked delete is requested;
every other state is left alone. -/
def cleanupEntryActions (usedBlockHashes : List (List Nat))
    (p : List Nat × HashBlockState) : List CleanupAction :=
  if p.2.IsAvailableAndFree then
    [CleanupAction.requestCheckedDelete (StringMapKeyToHashNoError p.1)]
  else if p.2.IsAvailableAndReservedByMe then
    if usedBlockHashes.contains p.1 then []
    else
      [CleanupAction.deleteReservation (StringMapKeyToHashNoError p.1),
        CleanupAction.requestCheckedDelete (StringMapKeyToHashNoError p.1)]
  else []

/-- `cleanupUnneededReservations` over the scan map, recording the service
calls in order.  (`usedBlockHashes` is the set of map keys of blocks
referenced by locally-held files; Go's map iteration order is arbitrary,
and the claims proved below are order-independent.) -/
def cleanupUnneededReservations (usedBlockHashes : List (List Nat)) :
    List (List Nat × HashBlockState) → List CleanupAction
  | [] => []
  | p :: rest =>
    cleanupEntryActions usedBlockHashes p ++
      cleanupUnneededReservations usedBlockHashes rest

/-- Modelled from the spec: `AsyncCheckedDeleteService` is not among the
provided sources.  Per the spec its worker re-queries a block's state
through the store, proceeds only if it is `IsAvailableAndFree`, announces
the deletion, waits one `TIME_CONSTANT_BASE`, re-queries the state (against
the then-current bucket), and performs the physical delete only if the
re-queried state is still `IsAvailableAndFree`.  This predicate says
whether the worker performs the physical delete, given the bucket contents
observed at the two queries. -/
def asyncCheckedDeletePerformsDelete (ownName : List Nat) (now1 now2 : Int)
    (bkt1 bkt2 : Bucket) (hash : List Nat) : Bool :=
  (GetBlockHashState ownName now1 bkt1 hash).IsAvailableAndFree &&
  (GetBlockHashState ownName now2 bkt2 hash).IsAvailableAndFree

/-- Claim C10: for the empty hash, `ReserveAndGet` returns `(nil, false)`
immediately — for either value of `downloadData`, for writable and read-only
handles alike, under any failure environment — without writing a `used-by`
tag, listing, or changing the bucket in any way. -/
theorem C10_empty_hash_reserveAndGet (env : StorageEnv) (myDeviceId : List Nat)
    (fuel : Nat) (now : Int) (bkt : Bucket) (downloadData : Bool) :
    ReserveAndGet env myDeviceId fuel now bkt [] downloadData =
      (RAGResult.ret none false, bkt) := by
  simp [ReserveAndGet]

/-- Claim C7, counterexample: on a fresh bucket, after
`SetMeta("BlockCountHint","7")` the hint read back is 100 — not 7 as the
claim states — because the parsed value is below the floor of 100. -/
theorem C7_counterexample :
    GetBlockHashesCountHint ((SetMeta [100] 0 [] BlockCountHintName [55]).2) = 100 ∧
    GetBlockHashesCountHint ((SetMeta [100] 0 [] BlockCountHintName [55]).2) ≠ 7 := by
  decide

/-- Claim C7 (amended): on a fresh bucket, `SetMeta("BlockCountHint","7")`
then `GetBlockHashesCountHint()` returns 100 (the floor of 100 applies to 7
as to any smaller value); overwriting with `"3"` returns 100; overwriting
with `"abc"` (unparseable) returns 100; a failed read (missing meta object)
returns 100; a parsed value at or above the floor, e.g. `"250"`, is returned
as such. -/
theorem C7_count_hint_floor :
    GetBlockHashesCountHint ((SetMeta [100] 0 [] BlockCountHintName [55]).2) = 100 ∧
    GetBlockHashesCountHint
      ((SetMeta [100] 1 ((SetMeta [100] 0 [] BlockCountHintName [55]).2)
        BlockCountHintName [51]).2) = 100 ∧
    GetBlockHashesCountHint
      ((SetMeta [100] 2 ((SetMeta [100] 1 ((SetMeta [100] 0 [] BlockCountHintName [55]).2)
        BlockCountHintName [51]).2) BlockCountHintName [97, 98, 99]).2) = 100 ∧
    GetBlockHashesCountHint [] = 100 ∧
    GetBlockHashesCountHint ((SetMeta [100] 0 [] BlockCountHintName [50, 53, 48]).2) = 250 := by
  decide

/-- Claim C8, counterexample: `DeleteReservation` on a read-only handle (the
empty participant id) runs into `log.Fatal` and `panic` — a process abort —
contradicting the claim that no write on a read-only handle aborts. -/
theorem C8_counterexample :
    (DeleteReservation [] [] [1]).1 = WriteOutcome.fatal := by decide

/-- Claim C8 (amended): on a read-only handle, `ReserveAndSet`, `SetMeta` and
`DeleteMeta` drop the write with a warning and return normally;
`AnnounceDelete`, `DeAnnounceDelete` and `UncheckedDelete` drop the write
with an error return; none of these six changes the bucket or aborts.
`DeleteReservation`, however, aborts the process (`log.Fatal` on the
read-only error from `removeATag`), leaving the bucket unchanged. -/
theorem C8_readonly_writes (env : StorageEnv) (now : Int) (bkt : Bucket)
    (hash name d : List Nat) :
    ReserveAndSet env [] now bkt hash d = (WriteOutcome.ok, bkt) ∧
    SetMeta [] now bkt name d = (WriteOutcome.ok, bkt) ∧
    DeleteMeta [] bkt name = (WriteOutcome.ok, bkt) ∧
    AnnounceDelete env [] now bkt hash = (WriteOutcome.errReturned, bkt) ∧
    DeAnnounceDelete [] bkt hash = (WriteOutcome.errReturned, bkt) ∧
    UncheckedDelete [] bkt hash = (WriteOutcome.errReturned, bkt) ∧
    DeleteReservation [] bkt hash = (WriteOutcome.fatal, bkt) := by
  refine ⟨?_, ?_, ?_, ?_, ?_, ?_, ?_⟩ <;>
    simp [ReserveAndSet, SetMeta, DeleteMeta, AnnounceDelete, DeAnnounceDelete,
      UncheckedDelete, DeleteReservation, putATag, removeATag]

/-- Claim C9, counterexample: a transient failure of the block-body download
inside `ReserveAndGet` does not return `found=false` — it panics (the source
reads `panic("failed to read existing block data!")`). -/
theorem C9_counterexample :
    (ReserveAndGet ⟨false, false, true⟩ [] 1 0
      [⟨getBlockStringKey [1], 0, [7]⟩] [1] true).1 = RAGResult.panicked := by
  decide

/-- Claim C9 (amended): a transient failure of the `used-by` tag put (on a
writable handle) or of the prefix listing makes `ReserveAndGet` return
`found=false` at once — no retry (the result is the same for every remaining
fuel) and no abort.  A failing block-body download, by contrast, panics
(see the counterexample). -/
theorem C9_transient_list_put_failures (env : StorageEnv) (myDeviceId : List Nat)
    (fuel : Nat) (now : Int) (bkt : Bucket) (hash : List Nat) (downloadData : Bool)
    (hfail : (myDeviceId ≠ [] ∧ env.putFails = true) ∨ env.listFails = true) :
    (ReserveAndGet env myDeviceId (fuel + 1) now bkt hash downloadData).1 =
      RAGResult.ret none false := by
  unfold ReserveAndGet
  by_cases hh : hash = []
  · simp [hh]
  · rw [if_neg hh]
    show (reserveAndGetLoop env myDeviceId hash downloadData (fuel + 1) now bkt).1 = _
    have h2 : (reserveAndCheckExistence env myDeviceId now bkt hash).2 = (false, false) := by
      rcases hfail with ⟨hdev, hput⟩ | hlist
      · unfold reserveAndCheckExistence putATag
        simp [hdev, hput]
      · unfold reserveAndCheckExistence
        by_cases hdev : myDeviceId = []
        · simp [hdev, rceListPhase, hlist]
        · rw [if_pos (by simpa using hdev)]
          cases hp : putATag env myDeviceId now bkt hash BLOCK_USE_TAG false <;>
            simp [rceListPhase, hlist]
    unfold reserveAndGetLoop
    have hr2 : (reserveAndCheckExistence env myDeviceId now bkt hash).2.2 = false := by
      rw [h2]
    have hr1 : (reserveAndCheckExistence env myDeviceId now bkt hash).2.1 = false := by
      rw [h2]
    simp [hr2, hr1]

/-- Claim C9's witness: the amended theorem at a concrete input — a failing
tag put on a writable handle yields `(nil, false)` with no retry left
unconsumed and no panic. -/
theorem C9_transient_list_put_failures_witness :
    (ReserveAndGet ⟨true, false, false⟩ [100] 1 0 [] [1] true).1 =
      RAGResult.ret none false :=
  C9_transient_list_put_failures ⟨true, false, false⟩ [100] 0 0 [] [1] true
    (Or.inl ⟨by decide, rfl⟩)

/-- Claim C6, counterexample: the `.` separator byte (46) does not sort after
the hex digits — it sorts before all of them (`hexDigitByte 0 = 48`), and
consequently a tag key can precede the bare block key of another hash, as
`blocks/00.used-by.x < blocks/0000` shows. -/
theorem C6_counterexample :
    tagSeparator < hexDigitByte 0 ∧
    lexLt (getATag [0] BLOCK_USE_TAG [120]) (getBlockStringKey [0, 0]) = true := by
  decide

theorem lexLt_irrefl (a : List Nat) : lexLt a a = false := by
  induction a with
  | nil => rfl
  | cons x xs ih => simp [lexLt, ih]

theorem lexLt_trans {a b c : List Nat} (h1 : lexLt a b = true) (h2 : lexLt b c = true) :
    lexLt a c = true := by
  induction a generalizing b c with
  | nil =>
    cases c with
    | nil => cases b <;> simp_all [lexLt]
    | cons y ys => simp [lexLt]
  | cons x xs ih =>
    cases b with
    | nil => simp [lexLt] at h1
    | cons y ys =>
      cases c with
      | nil => simp [lexLt] at h2
      | cons z zs =>
        simp only [lexLt] at h1 h2 ⊢
        by_cases hxy : x < y
        · by_cases hyz : y < z
          · simp [Nat.lt_trans hxy hyz]
          · simp [hyz] at h2
            rcases h2 with ⟨hyz', _⟩
            subst hyz'
            simp [hxy]
        · simp [hxy] at h1
          rcases h1 with ⟨hxy', h1'⟩
          subst hxy'
          by_cases hyz : x < z
          · simp [hyz]
          · simp [hyz] at h2 ⊢
            rcases h2 with ⟨hyz', h2'⟩
            subst hyz'
            exact ⟨rfl, ih h1' h2'⟩

theorem lexLt_asymm {a b : List Nat} (h : lexLt a b = true) : lexLt b a = false := by
  by_contra hcon
  have hba : lexLt b a = true := by
    cases hh : lexLt b a
    · exact absurd hh hcon
    · rfl
  have := lexLt_trans h hba
  rw [lexLt_irrefl] at this
  exact Bool.false_ne_true this

theorem eq_or_lexLt_of_not {a b : List Nat} (h : lexLt a b = false) :
    a = b ∨ lexLt b a = true := by
  induction a generalizing b with
  | nil =>
    cases b with
    | nil => exact Or.inl rfl
    | cons y ys => simp [lexLt] at h
  | cons x xs ih =>
    cases b with
    | nil => exact Or.inr rfl
    | cons y ys =>
      simp only [lexLt] at h ⊢
      by_cases hxy : x < y
      · simp [hxy] at h
      · simp [hxy] at h
        by_cases hyx : y < x
        · exact Or.inr (by simp [hyx])
        · have hxe : x = y := Nat.le_antisymm (Nat.le_of_not_lt hyx) (Nat.le_of_not_lt hxy)
          subst hxe
          simp only [eq_self_iff_true, if_true, if_neg (lt_irrefl x)] at h ⊢
          rcases ih (h trivial) with he | hlt
          · exact Or.inl (by rw [he])
          · exact Or.inr (by simp [hlt])

theorem lexLt_append_left (p : List Nat) (a b : List Nat) :
    lexLt (p ++ a) (p ++ b) = lexLt a b := by
  induction p with
  | nil => rfl
  | cons x xs ih => simp [lexLt, ih]

theorem lexLt_nil_cons (x : Nat) (l : List Nat) : lexLt [] (x :: l) = true := rfl

theorem lexLt_self_append {t x : List Nat} (hx : x ≠ []) : lexLt t (t ++ x) = true := by
  have : lexLt (t ++ []) (t ++ x) = lexLt [] x := lexLt_append_left t [] x
  rw [List.append_nil] at this
  rw [this]
  cases x with
  | nil => exact absurd rfl hx
  | cons c cs => rfl

theorem lexLt_head {a b : Nat} (h : a < b) (x y : List Nat) :
    lexLt (a :: x) (b :: y) = true := by
  simp [lexLt, h]

theorem lexLt_append_same_len {a b : List Nat} (hlen : a.length = b.length)
    (h : lexLt a b = true) (x y : List Nat) : lexLt (a ++ x) (b ++ y) = true := by
  induction a generalizing b with
  | nil =>
    cases b with
    | nil => simp [lexLt] at h
    | cons _ _ => simp at hlen
  | cons c cs ih =>
    cases b with
    | nil => simp [lexLt] at h
    | cons d ds =>
      simp only [lexLt] at h
      simp only [List.cons_append, lexLt]
      by_cases hcd : c < d
      · simp [hcd]
      · simp [hcd] at h ⊢
        rcases h with ⟨hce, h'⟩
        subst hce
        refine ⟨rfl, ?_⟩
        exact ih (by simpa using hlen) h'

theorem isPre_append (p x : List Nat) : isPre p (p ++ x) = true := by
  induction p with
  | nil => rfl
  | cons c cs ih => simp [isPre, ih]

theorem exists_of_isPre {p s : List Nat} (h : isPre p s = true) : ∃ t, s = p ++ t := by
  induction p generalizing s with
  | nil => exact ⟨s, rfl⟩
  | cons c cs ih =>
    cases s with
    | nil => simp [isPre] at h
    | cons d ds =>
      simp only [isPre, Bool.and_eq_true, decide_eq_true_eq] at h
      rcases h with ⟨he, h'⟩
      subst he
      rcases ih h' with ⟨t, ht⟩
      exact ⟨t, by rw [ht]; rfl⟩

theorem isPre_of_append_isPre {a b s : List Nat} (h : isPre (a ++ b) s = true) :
    isPre a s = true := by
  rcases exists_of_isPre h with ⟨t, ht⟩
  subst ht
  rw [List.append_assoc]
  exact isPre_append a (b ++ t)

theorem isPre_of_isPre_append {p a b : List Nat} (h : isPre p (a ++ b) = true)
    (hlen : p.length ≤ a.length) : isPre p a = true := by
  induction p generalizing a with
  | nil => rfl
  | cons c cs ih =>
    cases a with
    | nil => simp at hlen
    | cons d ds =>
      simp only [List.cons_append, isPre, Bool.and_eq_true, decide_eq_true_eq] at h ⊢
      exact ⟨h.1, ih h.2 (by simpa using hlen)⟩

theorem goCutPre_append (p x : List Nat) : goCutPre p (p ++ x) = x := by
  rw [goCutPre, if_pos (isPre_append p x)]
  exact List.drop_left p x

theorem cutPreOpt_append (p x : List Nat) : cutPreOpt p (p ++ x) = some x := by
  rw [cutPreOpt, if_pos (isPre_append p x)]
  rw [List.drop_left p x]

theorem eq_append_of_cutPreOpt {p s t : List Nat} (h : cutPreOpt p s = some t) :
    s = p ++ t := by
  rw [cutPreOpt] at h
  by_cases hp : isPre p s = true
  · rw [if_pos hp] at h
    rcases exists_of_isPre hp with ⟨u, hu⟩
    subst hu
    rw [List.drop_left p u] at h
    cases h
    rfl
  · rw [if_neg hp] at h
    cases h

/-- All bytes of a string differ from the `.` separator. -/
def noDot (s : List Nat) : Bool := s.all (fun c => c ≠ 46)

theorem splitOnDot_noDot {s : List Nat} (h : noDot s = true) : splitOnDot s = [s] := by
  induction s with
  | nil => rfl
  | cons c cs ih =>
    simp only [noDot, List.all_cons, Bool.and_eq_true, decide_eq_true_eq] at h
    rcases h with ⟨hc, h'⟩
    rw [splitOnDot, if_neg hc, ih h']

theorem splitOnDot_dot_append {h : List Nat} (hnd : noDot h = true) (r : List Nat) :
    splitOnDot (h ++ 46 :: r) = h :: splitOnDot r := by
  induction h with
  | nil => simp [splitOnDot]
  | cons c cs ih =>
    simp only [noDot, List.all_cons, Bool.and_eq_true, decide_eq_true_eq] at hnd
    rcases hnd with ⟨hc, h'⟩
    rw [List.cons_append, splitOnDot, if_neg hc, ih h']

theorem hexDigitByte_ge (n : Nat) : 48 ≤ hexDigitByte n := by
  rw [hexDigitByte]
  by_cases h : n < 10
  · rw [if_pos h]; omega
  · rw [if_neg h]; omega

theorem sep_lt_hexDigitByte (n : Nat) : tagSeparator < hexDigitByte n :=
  Nat.lt_of_lt_of_le (by norm_num [tagSeparator]) (hexDigitByte_ge n)

theorem hexEncode_ge {c : Nat} {H : List Nat} (h : c ∈ hexEncode H) : 48 ≤ c := by
  induction H with
  | nil => simp [hexEncode] at h
  | cons b bs ih =>
    simp only [hexEncode, hexByte, List.mem_append, List.mem_cons] at h
    rcases h with (h | h | h) | h
    · rw [h]; exact hexDigitByte_ge _
    · rw [h]; exact hexDigitByte_ge _
    · simp at h
    · exact ih h

theorem noDot_hexEncode (H : List Nat) : noDot (hexEncode H) = true := by
  rw [noDot, List.all_eq_true]
  intro c hc
  have := hexEncode_ge hc
  simp only [decide_eq_true_eq]
  omega

theorem fromHexDigit_hexDigitByte {d : Nat} (h : d < 16) :
    fromHexDigit (hexDigitByte d) = d := by
  rw [hexDigitByte, fromHexDigit]
  by_cases h10 : d < 10
  · rw [if_pos h10, if_pos (by omega)]
    omega
  · rw [if_neg h10, if_neg (by omega)]
    omega

theorem hexDecode_hexEncode {H : List Nat} (h : ∀ b ∈ H, b < 256) :
    hexDecode (hexEncode H) = H := by
  induction H with
  | nil => rfl
  | cons b bs ih =>
    have hb : b < 256 := h b (List.mem_cons_self b bs)
    have hdiv : b / 16 < 16 := Nat.div_lt_of_lt_mul (by omega)
    have hmod : b % 16 < 16 := Nat.mod_lt b (by omega)
    show hexDecode (hexDigitByte (b / 16) :: hexDigitByte (b % 16) :: hexEncode bs) = b :: bs
    rw [hexDecode, fromHexDigit_hexDigitByte hdiv, fromHexDigit_hexDigitByte hmod,
      ih (fun x hx => h x (List.mem_cons_of_mem b hx))]
    congr 1
    omega

theorem getBlockStringKey_eq (H : List Nat) :
    getBlockStringKey H = folderPre ++ hexEncode H := rfl

theorem getATag_eq (H kind id : List Nat) :
    getATag H kind id = getBlockStringKey H ++ 46 :: (kind ++ 46 :: id) := rfl

theorem ne_decompose (A B : List Nat) (h : A ≠ B) :
    (∃ t, B = A ++ t ∧ t ≠ []) ∨ (∃ t, A = B ++ t ∧ t ≠ []) ∨
      (∃ C a x b y, A = C ++ a :: x ∧ B = C ++ b :: y ∧ a ≠ b) := by
  induction A generalizing B with
  | nil =>
    cases B with
    | nil => exact absurd rfl h
    | cons b bs => exact Or.inl ⟨b :: bs, rfl, by simp⟩
  | cons a as ih =>
    cases B with
    | nil => exact Or.inr (Or.inl ⟨a :: as, rfl, by simp⟩)
    | cons b bs =>
      by_cases hab : a = b
      · subst hab
        have hne : as ≠ bs := by
          intro hh
          exact h (by rw [hh])
        rcases ih bs hne with ⟨t, ht, htne⟩ | ⟨t, ht, htne⟩ | ⟨C, c1, x, c2, y, h1, h2, hcc⟩
        · exact Or.inl ⟨t, by rw [ht]; rfl, htne⟩
        · exact Or.inr (Or.inl ⟨t, by rw [ht]; rfl, htne⟩)
        · exact Or.inr (Or.inr ⟨a :: C, c1, x, c2, y, by rw [h1]; rfl, by rw [h2]; rfl, hcc⟩)
      · exact Or.inr (Or.inr ⟨[], a, as, b, bs, rfl, rfl, hab⟩)

/-- The keys belonging to one block: the bare block key and its tag keys. -/
def isKeyOfBlock (H k : List Nat) : Prop :=
  k = getBlockStringKey H ∨ ∃ kind id, k = getATag H kind id

theorem key_shape {H k : List Nat} (hk : isKeyOfBlock H k) :
    ∃ s, k = folderPre ++ (hexEncode H ++ s) ∧ (s = [] ∨ ∃ s2, s = 46 :: s2) := by
  rcases hk with h | ⟨kind, id, h⟩
  · exact ⟨[], by rw [h, getBlockStringKey_eq, List.append_nil], Or.inl rfl⟩
  · refine ⟨46 :: (kind ++ 46 :: id), ?_, Or.inr ⟨_, rfl⟩⟩
    rw [h, getATag_eq, getBlockStringKey_eq, List.append_assoc]

/-- Claim C6 (amended): the `.` separator byte sorts strictly BEFORE every
hex digit (not after, as claimed); the bare block key still precedes all of
its own tag keys (being their strict prefix), and precisely because `.`
sorts before the hex digits, all keys of one block remain contiguous in any
byte-lexicographic listing: every key of a different block is either before
the bare key or after every key of the block. -/
theorem C6_key_contiguity (H K k k2 kind id : List Nat)
    (hH : ∀ b ∈ H, b < 256) (hK : ∀ b ∈ K, b < 256) (hne : H ≠ K)
    (hk : isKeyOfBlock H k) (hk2 : isKeyOfBlock K k2) :
    (∀ n : Nat, tagSeparator < hexDigitByte n) ∧
    lexLt (getBlockStringKey H) (getATag H kind id) = true ∧
    (lexLt k2 (getBlockStringKey H) = true ∨ lexLt k k2 = true) := by
  refine ⟨sep_lt_hexDigitByte, ?_, ?_⟩
  · rw [getATag_eq]
    exact lexLt_self_append (by simp)
  · have hEne : hexEncode H ≠ hexEncode K := by
      intro hEq
      exact hne (by rw [← hexDecode_hexEncode hH, ← hexDecode_hexEncode hK, hEq])
    rcases key_shape hk with ⟨s, hks, hs⟩
    rcases key_shape hk2 with ⟨s2, hk2s, hs2⟩
    rcases ne_decompose (hexEncode H) (hexEncode K) hEne with
      ⟨t, ht, htne⟩ | ⟨t, ht, htne⟩ | ⟨C, a, x, b, y, h1, h2, hab⟩
    · refine Or.inr ?_
      cases t with
      | nil => exact absurd rfl htne
      | cons c cs =>
        have hc48 : 48 ≤ c := by
          refine @hexEncode_ge c K ?_
          rw [ht]
          exact List.mem_append_right _ (List.mem_cons_self c cs)
        rw [hks, hk2s, ht, lexLt_append_left, List.append_assoc, lexLt_append_left]
        rcases hs with hsnil | ⟨s', hs'⟩
        · rw [hsnil, List.cons_append]
          exact lexLt_nil_cons _ _
        · rw [hs', List.cons_append]
          exact lexLt_head (by omega) _ _
    · refine Or.inl ?_
      cases t with
      | nil => exact absurd rfl htne
      | cons c cs =>
        have hc48 : 48 ≤ c := by
          refine @hexEncode_ge c H ?_
          rw [ht]
          exact List.mem_append_right _ (List.mem_cons_self c cs)
        rw [hk2s, getBlockStringKey_eq, ht, lexLt_append_left, lexLt_append_left]
        rcases hs2 with hsnil | ⟨s', hs'⟩
        · rw [hsnil]
          exact lexLt_nil_cons _ _
        · rw [hs']
          exact lexLt_head (by omega) _ _
    · rcases Nat.lt_or_ge a b with hlt | hge
      · refine Or.inr ?_
        rw [hks, hk2s, h1, h2, lexLt_append_left, List.append_assoc, List.append_assoc,
          lexLt_append_left, List.cons_append, List.cons_append]
        exact lexLt_head hlt _ _
      · have hblt : b < a := Nat.lt_of_le_of_ne hge (Ne.symm hab)
        refine Or.inl ?_
        rw [hk2s, getBlockStringKey_eq, h1, h2, List.append_assoc, lexLt_append_left,
          lexLt_append_left, List.cons_append]
        exact lexLt_head hblt _ _

/-- Claim C6's witness: at concrete distinct hashes `[0]` and `[1]`, the tag
key `blocks/00.used-by.p` of hash `[0]` sorts before the bare key
`blocks/01` of hash `[1]`, extracted from the contiguity theorem. -/
theorem C6_key_contiguity_witness :
    lexLt (getATag [0] BLOCK_USE_TAG [112]) (getBlockStringKey [1]) = true := by
  have h := C6_key_contiguity [1] [0] (getBlockStringKey [1])
    (getATag [0] BLOCK_USE_TAG [112]) BLOCK_USE_TAG [112]
    (by decide) (by decide) (by decide)
    (Or.inl rfl) (Or.inr ⟨BLOCK_USE_TAG, [112], rfl⟩)
  rcases h.2.2 with hl | hr
  · exact hl
  · exact absurd hr (by decide)

/-- Claim C4: the builder rules.  Seeing the bare block key sets `dataExists`
for the current hash and changes nothing else; a `used-by` tag on the
current hash sets `reservedByMe` when the id is our own and
`reservedByOthers` otherwise, but only while the accumulated state is
`IsAvailable` — otherwise the tag leaves the builder unchanged; a key with a
different hash makes `completeIfNextHash` emit the accumulated record if and
only if `dataExists` is set and reset the accumulator to the new hash with
the zero state; on close the last in-progress record is flushed under the
same `dataExists` condition. -/
theorem C4_builder_rules (b bAv bNav bCl : HashBlockStorageMapBuilder)
    (who whoAny nh : List Nat)
    (hnew : nh ≠ b.currentHash)
    (hAv : bAv.currentState.IsAvailable = true)
    (hNav : bNav.currentState.IsAvailable = false)
    (hwho : who ≠ bAv.ownName)
    (hCl : bCl.currentHash ≠ []) :
    b.addData b.currentHash =
      { b with currentState := { b.currentState with dataExists := true } } ∧
    bAv.addUse bAv.currentHash bAv.ownName =
      { bAv with currentState := { bAv.currentState with reservedByMe := true } } ∧
    bAv.addUse bAv.currentHash who =
      { bAv with currentState := { bAv.currentState with reservedByOthers := true } } ∧
    bNav.addUse bNav.currentHash whoAny = bNav ∧
    b.completeIfNextHash nh =
      { b with
          currentHash := nh,
          currentState := HashBlockState.empty,
          emitted := b.emitted ++
            (if b.currentState.dataExists then
              [⟨StringMapKeyToHashNoError b.currentHash, b.currentState⟩]
            else []) } ∧
    bCl.close.emitted = bCl.emitted ++
      (if bCl.currentState.dataExists then
        [⟨StringMapKeyToHashNoError bCl.currentHash, bCl.currentState⟩]
      else []) := by
  have hsame : ∀ b2 : HashBlockStorageMapBuilder,
      b2.completeIfNextHash b2.currentHash = b2 := by
    intro b2
    rw [HashBlockStorageMapBuilder.completeIfNextHash, if_pos rfl]
  have hdiff : ∀ b2 : HashBlockStorageMapBuilder, ∀ nh2, nh2 ≠ b2.currentHash →
      b2.completeIfNextHash nh2 =
        { b2 with
            currentHash := nh2,
            currentState := HashBlockState.empty,
            emitted := b2.emitted ++
              (if b2.currentState.dataExists then
                [⟨StringMapKeyToHashNoError b2.currentHash, b2.currentState⟩]
              else []) } := by
    intro b2 nh2 hne
    rw [HashBlockStorageMapBuilder.completeIfNextHash, if_neg hne]
    by_cases hde : b2.currentState.dataExists = true
    · rw [if_pos hde, if_pos hde]
    · rw [if_neg hde, if_neg hde, List.append_nil]
  refine ⟨?_, ?_, ?_, ?_, hdiff b nh hnew, ?_⟩
  · rw [HashBlockStorageMapBuilder.addData, hsame b]
  · rw [HashBlockStorageMapBuilder.addUse, hsame bAv, if_pos hAv, if_pos rfl]
  · rw [HashBlockStorageMapBuilder.addUse, hsame bAv, if_pos hAv, if_neg hwho]
  · rw [HashBlockStorageMapBuilder.addUse, hsame bNav,
      if_neg (by rw [hNav]; exact Bool.false_ne_true)]
  · rw [HashBlockStorageMapBuilder.close,
      hdiff bCl [] (fun hh => hCl hh.symm)]

/-- Claim C4's witness: the builder rules at concrete builders — seeing the
bare key for the current hash `"01"` on a fresh accumulator sets exactly
`dataExists`. -/
theorem C4_builder_rules_witness :
    (⟨[7], [48, 49], HashBlockState.empty, []⟩ :
        HashBlockStorageMapBuilder).addData [48, 49] =
      ⟨[7], [48, 49], ⟨true, false, false, false⟩, []⟩ := by
  have h := C4_builder_rules
    ⟨[7], [48, 49], HashBlockState.empty, []⟩
    ⟨[7], [48, 49], ⟨true, false, false, false⟩, []⟩
    ⟨[7], [48, 49], HashBlockState.empty, []⟩
    ⟨[7], [48, 49], ⟨true, false, false, false⟩, []⟩
    [5] [6] [48, 50] (by decide) (by decide) (by decide) (by decide) (by decide)
  exact h.1

theorem hash_of_mem_cleanupEntryActions {used : List (List Nat)}
    {p : List Nat × HashBlockState} {a : CleanupAction}
    (ha : a ∈ cleanupEntryActions used p) :
    cleanupActionHash a = StringMapKeyToHashNoError p.1 := by
  rw [cleanupEntryActions] at ha
  split at ha
  · rcases List.mem_singleton.mp ha with rfl
    rfl
  · split at ha
    · split at ha
      · cases ha
      · rcases List.mem_cons.mp ha with rfl | ha2
        · rfl
        · rcases List.mem_singleton.mp ha2 with rfl
          rfl
    · cases ha

theorem hash_of_mem_cleanup {used : List (List Nat)}
    {m : List (List Nat × HashBlockState)} {a : CleanupAction}
    (ha : a ∈ cleanupUnneededReservations used m) :
    cleanupActionHash a ∈ m.map (fun p => StringMapKeyToHashNoError p.1) := by
  induction m with
  | nil => cases ha
  | cons p rest ih =>
    rw [cleanupUnneededReservations] at ha
    rcases List.mem_append.mp ha with h1 | h2
    · exact List.mem_map.mpr ⟨p, List.mem_cons_self p rest,
        (hash_of_mem_cleanupEntryActions h1).symm⟩
    · exact List.mem_cons_of_mem _ (ih h2)

/-- Claim C2: for every entry `(H, state)` of the scan map processed during
reclamation (map keys decode to pairwise distinct hashes), the cleanup
actions concerning `H` are exactly: a checked delete when the state is
`IsAvailableAndFree`; `DeleteReservation(H)` followed by a checked delete
when the state is `IsAvailableAndReservedByMe` and `H` is not referenced by
any locally-held file; and nothing in every other case. -/
theorem C2_reclamation_classification (used : List (List Nat))
    (m : List (List Nat × HashBlockState)) (h : List Nat) (s : HashBlockState)
    (hmem : (h, s) ∈ m)
    (hnodup : (m.map (fun p => StringMapKeyToHashNoError p.1)).Nodup) :
    (cleanupUnneededReservations used m).filter
        (fun a => cleanupActionHash a = StringMapKeyToHashNoError h) =
      (if s.IsAvailableAndFree then
        [CleanupAction.requestCheckedDelete (StringMapKeyToHashNoError h)]
      else if s.IsAvailableAndReservedByMe = true ∧ h ∉ used then
        [CleanupAction.deleteReservation (StringMapKeyToHashNoError h),
          CleanupAction.requestCheckedDelete (StringMapKeyToHashNoError h)]
      else []) := by
  induction m with
  | nil => cases hmem
  | cons p rest ih =>
    rw [cleanupUnneededReservations, List.filter_append]
    rw [List.map_cons, List.nodup_cons] at hnodup
    rcases List.mem_cons.mp hmem with heq | htail
    · obtain ⟨rfl, rfl⟩ : p.1 = h ∧ p.2 = s := by
        rw [← heq]
        exact ⟨rfl, rfl⟩
      have htailnil :
          (cleanupUnneededReservations used rest).filter
            (fun a => cleanupActionHash a = StringMapKeyToHashNoError p.1) = [] := by
        rw [List.filter_eq_nil_iff]
        intro a ha
        have hin := hash_of_mem_cleanup ha
        simp only [decide_eq_true_eq]
        intro hha
        exact hnodup.1 (by rw [← hha]; exact hin)
      rw [htailnil, List.append_nil, cleanupEntryActions]
      by_cases hfree : p.2.IsAvailableAndFree = true
      · rw [if_pos hfree, if_pos hfree, List.filter_singleton]
        simp [cleanupActionHash]
      · rw [if_neg hfree, if_neg hfree]
        by_cases hres : p.2.IsAvailableAndReservedByMe = true
        · rw [if_pos hres]
          by_cases hused : used.contains p.1 = true
          · rw [if_pos hused, if_neg, List.filter_nil]
            rintro ⟨-, hnot⟩
            exact hnot (List.elem_iff.mp hused)
          · rw [if_neg hused,
              if_pos ⟨hres, fun hin => hused (List.elem_iff.mpr hin)⟩]
            simp [cleanupActionHash]
        · rw [if_neg hres, if_neg, List.filter_nil]
          rintro ⟨hres2, -⟩
          exact hres hres2
    · have hne : StringMapKeyToHashNoError p.1 ≠ StringMapKeyToHashNoError h := by
        intro hh
        exact hnodup.1 (by rw [hh]; exact List.mem_map.mpr ⟨(h, s), htail, rfl⟩)
      have hheadnil :
          (cleanupEntryActions used p).filter
            (fun a => cleanupActionHash a = StringMapKeyToHashNoError h) = [] := by
        rw [List.filter_eq_nil_iff]
        intro a ha
        simp only [decide_eq_true_eq]
        rw [hash_of_mem_cleanupEntryActions ha]
        exact hne
      rw [hheadnil, List.nil_append]
      exact ih htail hnodup.2

/-- Claim C2's witness: the per-entry classification at a concrete scan map —
an available block reserved only by us and not referenced locally gets its
reservation deleted and a checked delete enqueued, in that order. -/
theorem C2_reclamation_classification_witness :
    (cleanupUnneededReservations [[48, 49]]
        [([48, 49], ⟨true, true, false, false⟩),
          ([48, 50], ⟨true, true, false, false⟩)]).filter
        (fun a => cleanupActionHash a = StringMapKeyToHashNoError [48, 50]) =
      [CleanupAction.deleteReservation [2], CleanupAction.requestCheckedDelete [2]] := by
  have h := C2_reclamation_classification [[48, 49]]
    [([48, 49], ⟨true, true, false, false⟩), ([48, 50], ⟨true, true, false, false⟩)]
    [48, 50] ⟨true, true, false, false⟩ (by decide) (by decide)
  rw [h, if_neg (by decide), if_pos]
  · rfl
  · refine ⟨by decide, by decide⟩

theorem mem_insertByKey {a o : BucketObj} {l : List BucketObj} :
    a ∈ insertByKey o l ↔ a = o ∨ a ∈ l := by
  induction l with
  | nil => simp [insertByKey]
  | cons x xs ih =>
    rw [insertByKey]
    by_cases h : lexLt x.key o.key = true
    · rw [if_pos h, List.mem_cons, ih, List.mem_cons]
      tauto
    · rw [if_neg h, List.mem_cons, List.mem_cons]

theorem mem_sortKeys {a : BucketObj} {l : List BucketObj} :
    a ∈ sortKeys l ↔ a ∈ l := by
  induction l with
  | nil => simp [sortKeys]
  | cons x xs ih =>
    rw [sortKeys, mem_insertByKey, ih, List.mem_cons]

theorem length_insertByKey (o : BucketObj) (l : List BucketObj) :
    (insertByKey o l).length = l.length + 1 := by
  induction l with
  | nil => rfl
  | cons x xs ih =>
    rw [insertByKey]
    by_cases h : lexLt x.key o.key = true
    · rw [if_pos h, List.length_cons, ih, List.length_cons]
    · rw [if_neg h, List.length_cons, List.length_cons]

theorem length_sortKeys (l : List BucketObj) : (sortKeys l).length = l.length := by
  induction l with
  | nil => rfl
  | cons x xs ih => rw [sortKeys, length_insertByKey, ih, List.length_cons]

theorem mem_of_mem_listPage {e : BucketObj} {b2 : Bucket} {hash : List Nat}
    (h : e ∈ listPageForHash b2 hash) : e ∈ b2 := by
  rw [listPageForHash, bucketListing] at h
  exact List.mem_of_mem_filter (mem_sortKeys.mp (List.take_subset _ _ h))

theorem suffix_of_getATag (hash tag dev : List Nat) :
    goCutPre (getBlockStringKey hash) (getATag hash tag dev) =
      46 :: (tag ++ 46 :: dev) := by
  rw [getATag]
  simpa [tagSeparator] using
    goCutPre_append (getBlockStringKey hash) (tagSeparator :: (tag ++ tagSeparator :: dev))

theorem use_suffix_not_delete (hash dev : List Nat) :
    cutPreOpt (dotTagDot BLOCK_DELETE_TAG)
      (goCutPre (getBlockStringKey hash) (getATag hash BLOCK_USE_TAG dev)) = none := by
  rw [suffix_of_getATag]
  simp [cutPreOpt, dotTagDot, isPre, BLOCK_DELETE_TAG, BLOCK_USE_TAG, tagSeparator]

theorem delete_suffix_not_use (hash dev : List Nat) :
    cutPreOpt (dotTagDot BLOCK_USE_TAG)
      (goCutPre (getBlockStringKey hash) (getATag hash BLOCK_DELETE_TAG dev)) = none := by
  rw [suffix_of_getATag]
  simp [cutPreOpt, dotTagDot, isPre, BLOCK_DELETE_TAG, BLOCK_USE_TAG, tagSeparator]

theorem delete_suffix_cut (hash dev : List Nat) :
    cutPreOpt (dotTagDot BLOCK_DELETE_TAG)
      (goCutPre (getBlockStringKey hash) (getATag hash BLOCK_DELETE_TAG dev)) =
      some dev := by
  rw [suffix_of_getATag]
  have h : (46 : Nat) :: (BLOCK_DELETE_TAG ++ 46 :: dev) =
      dotTagDot BLOCK_DELETE_TAG ++ dev := by
    simp [dotTagDot, tagSeparator]
  rw [h]
  exact cutPreOpt_append _ _

theorem rceStep_deleteTag {hash devA2 : List Nat} {now mt : Int} {d : List Nat}
    (acc : RCEAcc) (hfresh : now - mt < TIME_CONSTANT_BASE) :
    rceStep (getBlockStringKey hash) now acc
        ⟨getATag hash BLOCK_DELETE_TAG devA2, mt, d⟩ =
      { acc with deletes := acc.deletes ++ [devA2] } := by
  have h1 : goCutPre (getBlockStringKey hash) (getATag hash BLOCK_DELETE_TAG devA2) ≠ [] := by
    rw [suffix_of_getATag]
    simp
  simp only [rceStep, delete_suffix_not_use, delete_suffix_cut]
  rw [if_neg h1, if_pos hfresh]

theorem rceStep_deletes_of_stale {hk : List Nat} {now : Int} {acc : RCEAcc}
    {e : BucketObj}
    (h : ∀ dev, cutPreOpt (dotTagDot BLOCK_DELETE_TAG) (goCutPre hk e.key) = some dev →
      now - e.modTime ≥ TIME_CONSTANT_BASE) :
    (rceStep hk now acc e).deletes = acc.deletes := by
  rw [rceStep]
  by_cases hsuf : goCutPre hk e.key = []
  · rw [if_pos hsuf]
  · rw [if_neg hsuf]
    cases hu : cutPreOpt (dotTagDot BLOCK_USE_TAG) (goCutPre hk e.key) with
    | some dev => rfl
    | none =>
      cases hd : cutPreOpt (dotTagDot BLOCK_DELETE_TAG) (goCutPre hk e.key) with
      | none => rfl
      | some dev =>
        have hge := Int.not_lt.mpr (h dev hd)
        simp [hge]

theorem rce_fold_deletes_append (hk : List Nat) (now : Int) :
    ∀ (l : List BucketObj) (acc : RCEAcc),
      ∃ t, (l.foldl (rceStep hk now) acc).deletes = acc.deletes ++ t := by
  intro l
  induction l with
  | nil => exact fun acc => ⟨[], (List.append_nil _).symm⟩
  | cons x xs ih =>
    intro acc
    have hstep : ∃ s, (rceStep hk now acc x).deletes = acc.deletes ++ s := by
      rw [rceStep]
      by_cases hsuf : goCutPre hk x.key = []
      · exact ⟨[], by rw [if_pos hsuf, List.append_nil]⟩
      · rw [if_neg hsuf]
        cases hu : cutPreOpt (dotTagDot BLOCK_USE_TAG) (goCutPre hk x.key) with
        | some dev => exact ⟨[], (List.append_nil _).symm⟩
        | none =>
          cases hd : cutPreOpt (dotTagDot BLOCK_DELETE_TAG) (goCutPre hk x.key) with
          | none => exact ⟨[], (List.append_nil _).symm⟩
          | some dev =>
            by_cases hfr : now - x.modTime < TIME_CONSTANT_BASE
            · exact ⟨[dev], by simp [hfr]⟩
            · exact ⟨[], by simp [hfr]⟩
    rcases hstep with ⟨s, hs⟩
    rcases ih (rceStep hk now acc x) with ⟨t, ht⟩
    exact ⟨s ++ t, by rw [List.foldl_cons, ht, hs, List.append_assoc]⟩

theorem rce_fold_freshTag {hash devA2 : List Nat} {now mt : Int} {d : List Nat}
    {l : List BucketObj}
    (he : (⟨getATag hash BLOCK_DELETE_TAG devA2, mt, d⟩ : BucketObj) ∈ l)
    (hfresh : now - mt < TIME_CONSTANT_BASE) (acc : RCEAcc) :
    (l.foldl (rceStep (getBlockStringKey hash) now) acc).deletes ≠ [] := by
  induction l generalizing acc with
  | nil => cases he
  | cons x xs ih =>
    rcases List.mem_cons.mp he with heq | htail
    · cases heq.symm
      rw [List.foldl_cons, rceStep_deleteTag acc hfresh]
      rcases rce_fold_deletes_append (getBlockStringKey hash) now xs
        { acc with deletes := acc.deletes ++ [devA2] } with ⟨t, ht⟩
      rw [ht]
      simp
    · exact ih htail _

theorem rce_fold_deletes_nil (hk : List Nat) (now : Int) (l : List BucketObj)
    (h : ∀ e ∈ l, ∀ dev,
      cutPreOpt (dotTagDot BLOCK_DELETE_TAG) (goCutPre hk e.key) = some dev →
        now - e.modTime ≥ TIME_CONSTANT_BASE) :
    ∀ (acc : RCEAcc), acc.deletes = [] →
      (l.foldl (rceStep hk now) acc).deletes = [] := by
  induction l with
  | nil => exact fun acc hacc => hacc
  | cons x xs ih =>
    intro acc hacc
    rw [List.foldl_cons]
    refine ih (fun e he => h e (List.mem_cons_of_mem _ he)) _ ?_
    rw [rceStep_deletes_of_stale (h x (List.mem_cons_self _ _)), hacc]

theorem rceListPhase_retry_of_freshTag {env : StorageEnv} {now mt : Int}
    {b2 : Bucket} {hash devA2 d : List Nat}
    (hlist : env.listFails = false)
    (hmem : (⟨getATag hash BLOCK_DELETE_TAG devA2, mt, d⟩ : BucketObj) ∈ b2)
    (hfresh : now - mt < TIME_CONSTANT_BASE)
    (hlen : (b2.filter (fun e => isPre (getBlockStringKey hash) e.key)).length ≤ 10) :
    (rceListPhase env now b2 hash).2.2 = true := by
  simp only [rceListPhase]
  rw [if_neg (by rw [hlist]; exact Bool.false_ne_true)]
  have hpage : (⟨getATag hash BLOCK_DELETE_TAG devA2, mt, d⟩ : BucketObj) ∈
      listPageForHash b2 hash := by
    rw [listPageForHash, bucketListing, List.take_of_length_le]
    · refine mem_sortKeys.mpr (List.mem_filter.mpr ⟨hmem, ?_⟩)
      rw [getATag]
      exact isPre_append _ _
    · rw [length_sortKeys]
      exact hlen
  rw [if_pos (rce_fold_freshTag hpage hfresh _)]

theorem rceListPhase_no_retry_of_stale {env : StorageEnv} {now : Int}
    {b2 : Bucket} {hash : List Nat}
    (h : ∀ e ∈ b2, ∀ dev,
      cutPreOpt (dotTagDot BLOCK_DELETE_TAG)
          (goCutPre (getBlockStringKey hash) e.key) = some dev →
        now - e.modTime ≥ TIME_CONSTANT_BASE) :
    (rceListPhase env now b2 hash).2.2 = false := by
  simp only [rceListPhase]
  by_cases hl : env.listFails = true
  · rw [if_pos hl]
  · rw [if_neg hl]
    have hnil := rce_fold_deletes_nil (getBlockStringKey hash) now
      (listPageForHash b2 hash)
      (fun e he => h e (mem_of_mem_listPage he)) (⟨none, [], []⟩ : RCEAcc) rfl
    rw [if_neg (fun hcon => hcon hnil)]
    by_cases hde :
        ((listPageForHash b2 hash).foldl
          (rceStep (getBlockStringKey hash) now) ⟨none, [], []⟩).dataEntry.isNone = true
    · rw [if_pos hde]
    · rw [if_neg hde]

theorem getATag_delete_ne_use (hash a b : List Nat) :
    getATag hash BLOCK_DELETE_TAG a ≠ getATag hash BLOCK_USE_TAG b := by
  intro h
  have h2 := congrArg (List.drop (getBlockStringKey hash).length) h
  rw [getATag, getATag, List.drop_left, List.drop_left] at h2
  simp [BLOCK_DELETE_TAG, BLOCK_USE_TAG] at h2

theorem mem_writeAll_of_ne {e : BucketObj} {bkt : Bucket} {k d : List Nat}
    {now : Int} (he : e ∈ bkt) (hne : e.key ≠ k) : e ∈ writeAll bkt k d now := by
  rw [writeAll]
  exact List.mem_append_left _ (List.mem_filter.mpr ⟨he, by simpa using hne⟩)

theorem filter_writeAll_length_le (bkt : Bucket) (k d : List Nat) (now : Int)
    (pred : BucketObj → Bool) :
    ((writeAll bkt k d now).filter pred).length ≤ (bkt.filter pred).length + 1 := by
  rw [writeAll, List.filter_append, List.length_append]
  have h1 : ((bkt.filter (fun e => e.key ≠ k)).filter pred).length ≤
      (bkt.filter pred).length :=
    ((List.filter_sublist bkt).filter pred).length_le
  have h2 : (List.filter pred [⟨k, now, d⟩]).length ≤ 1 := by
    by_cases hp : pred ⟨k, now, d⟩ = true
    · simp [List.filter, hp]
    · simp [List.filter, hp]
  omega

theorem announce_writes (env : StorageEnv) (devA : List Nat) (t : Int)
    (bkt : Bucket) (hash : List Nat) (hA : devA ≠ []) (hput : env.putFails = false) :
    AnnounceDelete env devA t bkt hash =
      (WriteOutcome.ok, writeAll bkt (getATag hash BLOCK_DELETE_TAG devA) [] t) := by
  rw [AnnounceDelete, putATag, if_neg hA,
    if_neg (by rw [hput]; exact Bool.false_ne_true),
    if_neg (by rintro ⟨h1, -⟩; simp at h1)]

theorem putATag_usetag_cases (env : StorageEnv) (dev : List Nat) (now : Int)
    (bkt : Bucket) (hash : List Nat) (hdev : dev ≠ []) (hput : env.putFails = false) :
    putATag env dev now bkt hash BLOCK_USE_TAG false = some bkt ∨
    putATag env dev now bkt hash BLOCK_USE_TAG false =
      some (writeAll bkt (getATag hash BLOCK_USE_TAG dev) [] now) := by
  rw [putATag, if_neg hdev, if_neg (by rw [hput]; exact Bool.false_ne_true)]
  by_cases he : bucketExists bkt (getATag hash BLOCK_USE_TAG dev) = true
  · exact Or.inl (by rw [if_pos ⟨rfl, he⟩])
  · exact Or.inr (by rw [if_neg (by rintro ⟨-, h2⟩; exact he h2)])

theorem rce_retry_after_announce (env envR : StorageEnv) (devA devR : List Nat)
    (bkt : Bucket) (hash : List Nat) (t now : Int)
    (hA : devA ≠ []) (hput : env.putFails = false)
    (hlistR : envR.listFails = false) (hputR : envR.putFails = false)
    (hwin2 : now < t + TIME_CONSTANT_BASE)
    (hsmall : (((AnnounceDelete env devA t bkt hash).2).filter
        (fun e => isPre (getBlockStringKey hash) e.key)).length ≤ 9) :
    (reserveAndCheckExistence envR devR now
        (AnnounceDelete env devA t bkt hash).2 hash).2.2 = true := by
  have hann := announce_writes env devA t bkt hash hA hput
  have hmem1 : (⟨getATag hash BLOCK_DELETE_TAG devA, t, []⟩ : BucketObj) ∈
      (AnnounceDelete env devA t bkt hash).2 := by
    rw [hann]
    exact List.mem_append_right _ (List.mem_singleton.mpr rfl)
  have hfresh : now - t < TIME_CONSTANT_BASE := by omega
  rw [reserveAndCheckExistence]
  by_cases hdev : devR ≠ []
  · rw [if_pos hdev]
    rcases putATag_usetag_cases envR devR now (AnnounceDelete env devA t bkt hash).2
        hash hdev hputR with hcase | hcase
    · rw [hcase]
      exact rceListPhase_retry_of_freshTag hlistR hmem1 hfresh (by omega)
    · rw [hcase]
      refine @rceListPhase_retry_of_freshTag envR now t _ hash devA [] hlistR ?_ hfresh ?_
      · exact mem_writeAll_of_ne hmem1 (getATag_delete_ne_use hash devA devR)
      · have := filter_writeAll_length_le (AnnounceDelete env devA t bkt hash).2
          (getATag hash BLOCK_USE_TAG devR) [] now
          (fun e => isPre (getBlockStringKey hash) e.key)
        omega
  · rw [if_neg hdev]
    exact rceListPhase_retry_of_freshTag hlistR hmem1 hfresh (by omega)

/-- Claim C3: after a successful `AnnounceDelete(H)` at time `t`, any
`ReserveAndGet(H, _)` whose listing is taken at a time in
`[t, t + TIME_CONSTANT_BASE)` (with the page covering the block's keys and
its own tag put and listing succeeding) observes the fresh `deletion-by`
tag in the listed page, does not return, and instead sleeps one minute and
retries the whole reserve-and-check operation; and a listing in which every
`deletion-by` tag is at least `TIME_CONSTANT_BASE` old triggers no retry. -/
theorem C3_announce_freshness (env envR : StorageEnv) (devA devR : List Nat)
    (bkt bktS : Bucket) (hash : List Nat) (t now nowS : Int) (fuel : Nat) (dl : Bool)
    (hA : devA ≠ []) (hput : env.putFails = false)
    (hlistR : envR.listFails = false) (hputR : envR.putFails = false)
    (hwin1 : t ≤ now) (hwin2 : now < t + TIME_CONSTANT_BASE)
    (hsmall : (((AnnounceDelete env devA t bkt hash).2).filter
        (fun e => isPre (getBlockStringKey hash) e.key)).length ≤ 9)
    (hstale : ∀ e ∈ bktS, ∀ dev,
      cutPreOpt (dotTagDot BLOCK_DELETE_TAG)
          (goCutPre (getBlockStringKey hash) e.key) = some dev →
        nowS - e.modTime ≥ TIME_CONSTANT_BASE) :
    (AnnounceDelete env devA t bkt hash).1 = WriteOutcome.ok ∧
    (⟨getATag hash BLOCK_DELETE_TAG devA, t, []⟩ : BucketObj) ∈
      listPageForHash (AnnounceDelete env devA t bkt hash).2 hash ∧
    (reserveAndCheckExistence envR devR now
        (AnnounceDelete env devA t bkt hash).2 hash).2.2 = true ∧
    reserveAndGetLoop envR devR hash dl (fuel + 1) now
        (AnnounceDelete env devA t bkt hash).2 =
      reserveAndGetLoop envR devR hash dl fuel (now + TIME_CONSTANT_BASE)
        (reserveAndCheckExistence envR devR now
          (AnnounceDelete env devA t bkt hash).2 hash).1 ∧
    (rceListPhase envR nowS bktS hash).2.2 = false := by
  have hann := announce_writes env devA t bkt hash hA hput
  have hretry := rce_retry_after_announce env envR devA devR bkt hash t now
    hA hput hlistR hputR hwin2 hsmall
  refine ⟨?_, ?_, hretry, ?_, rceListPhase_no_retry_of_stale hstale⟩
  · rw [hann]
  · have hmem1 : (⟨getATag hash BLOCK_DELETE_TAG devA, t, []⟩ : BucketObj) ∈
        (AnnounceDelete env devA t bkt hash).2 := by
      rw [hann]
      exact List.mem_append_right _ (List.mem_singleton.mpr rfl)
    rw [listPageForHash, bucketListing, List.take_of_length_le]
    · refine mem_sortKeys.mpr (List.mem_filter.mpr ⟨hmem1, ?_⟩)
      rw [getATag]
      exact isPre_append _ _
    · rw [length_sortKeys]
      have := List.length_filter_le (fun e => isPre (getBlockStringKey hash) e.key)
        (AnnounceDelete env devA t bkt hash).2
      omega
  · conv_lhs => rw [reserveAndGetLoop]
    rw [if_pos hretry]

/-- Claim C3's witness: the freshness theorem at a concrete input — announce
at time 0, reserve listing at time 30 observes the tag and retries. -/
theorem C3_announce_freshness_witness :
    (reserveAndCheckExistence ⟨false, false, false⟩ [98] 30
        (AnnounceDelete ⟨false, false, false⟩ [97] 0 [] [1]).2 [1]).2.2 = true := by
  have h := C3_announce_freshness ⟨false, false, false⟩ ⟨false, false, false⟩
    [97] [98] [] [] [1] 0 30 100 0 false (by decide) rfl rfl rfl
    (by decide) (by decide) (by decide)
    (by intro e he dev hcut; cases he)
  exact h.2.2.1

theorem lexLe_trans {a b c : List Nat} (h1 : lexLe a b = true) (h2 : lexLe b c = true) :
    lexLe a c = true := by
  simp only [lexLe, Bool.not_eq_true'] at h1 h2 ⊢
  rcases eq_or_lexLt_of_not h1 with rfl | hab
  · exact h2
  · rcases eq_or_lexLt_of_not h2 with rfl | hbc
    · exact h1
    · exact lexLt_asymm (lexLt_trans hab hbc)

theorem pairwise_insertByKey {o : BucketObj} {l : List BucketObj}
    (h : List.Pairwise (fun a b => lexLe a.key b.key = true) l) :
    List.Pairwise (fun a b => lexLe a.key b.key = true) (insertByKey o l) := by
  induction l with
  | nil => simp [insertByKey]
  | cons x xs ih =>
    rw [insertByKey]
    rcases List.pairwise_cons.mp h with ⟨hx, hxs⟩
    by_cases hlt : lexLt x.key o.key = true
    · rw [if_pos hlt]
      refine List.pairwise_cons.mpr ⟨?_, ih hxs⟩
      intro y hy
      rcases mem_insertByKey.mp hy with rfl | hy2
      · rw [lexLe, lexLt_asymm hlt]
        rfl
      · exact hx y hy2
    · rw [if_neg hlt]
      have hox : lexLe o.key x.key = true := by
        rw [lexLe]
        cases hxo : lexLt x.key o.key with
        | false => rfl
        | true => exact absurd hxo hlt
      refine List.pairwise_cons.mpr ⟨?_, h⟩
      intro y hy
      rcases List.mem_cons.mp hy with rfl | hy2
      · exact hox
      · exact lexLe_trans hox (hx y hy2)

theorem sortKeys_pairwise (l : List BucketObj) :
    List.Pairwise (fun a b => lexLe a.key b.key = true) (sortKeys l) := by
  induction l with
  | nil => exact List.Pairwise.nil
  | cons x xs ih =>
    rw [sortKeys]
    exact pairwise_insertByKey ih

theorem splitOnDot_ne_nil (s : List Nat) : splitOnDot s ≠ [] := by
  cases s with
  | nil => simp [splitOnDot]
  | cons c cs =>
    rw [splitOnDot]
    by_cases h : c = 46
    · simp [h]
    · rw [if_neg h]
      cases hs : splitOnDot cs <;> simp

theorem hexEncode_ne_nil {hash : List Nat} (h : hash ≠ []) : hexEncode hash ≠ [] := by
  cases hash with
  | nil => exact absurd rfl h
  | cons b bs => simp [hexEncode, hexByte]

theorem completeIfNextHash_same (b : HashBlockStorageMapBuilder) :
    b.completeIfNextHash b.currentHash = b := by
  rw [HashBlockStorageMapBuilder.completeIfNextHash, if_pos rfl]

theorem processObj_bareKey (now : Int) (b : HashBlockStorageMapBuilder)
    (hash : List Nat) (mt : Int) (d : List Nat) :
    processObj now b ⟨getBlockStringKey hash, mt, d⟩ =
      b.addData (hexEncode hash) := by
  simp only [processObj]
  rw [getBlockStringKey_eq, goCutPre_append, splitOnDot_noDot (noDot_hexEncode hash)]
  rw [if_pos (by simp)]

theorem processObj_dotKey (now : Int) (b : HashBlockStorageMapBuilder)
    (hash r : List Nat) (mt : Int) (d : List Nat) :
    processObj now b ⟨getBlockStringKey hash ++ 46 :: r, mt, d⟩ = b ∨
    (∃ who, processObj now b ⟨getBlockStringKey hash ++ 46 :: r, mt, d⟩ =
      b.addUse (hexEncode hash) who) ∨
    processObj now b ⟨getBlockStringKey hash ++ 46 :: r, mt, d⟩ =
      b.addDelete (hexEncode hash) := by
  simp only [processObj]
  have hcut : goCutPre folderPre (getBlockStringKey hash ++ 46 :: r) =
      hexEncode hash ++ 46 :: r := by
    rw [getBlockStringKey_eq, List.append_assoc]
    exact goCutPre_append _ _
  rw [hcut, splitOnDot_dot_append (noDot_hexEncode hash)]
  have hlen : ¬ (hexEncode hash :: splitOnDot r).length ≤ 1 := by
    cases hs : splitOnDot r with
    | nil => exact absurd hs (splitOnDot_ne_nil r)
    | cons a as => simp
  rw [if_neg hlen]
  by_cases huse : (hexEncode hash :: splitOnDot r).getD 1 [] = BLOCK_USE_TAG ∧
      3 ≤ (hexEncode hash :: splitOnDot r).length
  · rw [if_pos huse]
    exact Or.inr (Or.inl ⟨_, rfl⟩)
  · rw [if_neg huse]
    by_cases hdel : (hexEncode hash :: splitOnDot r).getD 1 [] = BLOCK_DELETE_TAG
    · rw [if_pos hdel]
      by_cases hfr : now - mt < TIME_CONSTANT_BASE
      · rw [if_pos hfr]
        exact Or.inr (Or.inr rfl)
      · rw [if_neg hfr]
        exact Or.inl rfl
    · rw [if_neg hdel]
      exact Or.inl rfl

/-- Flag-wise monotonicity of builder states: every flag set stays set. -/
def stateLe (s1 s2 : HashBlockState) : Prop :=
  (s1.dataExists = true → s2.dataExists = true) ∧
  (s1.reservedByMe = true → s2.reservedByMe = true) ∧
  (s1.reservedByOthers = true → s2.reservedByOthers = true) ∧
  (s1.deletionPending = true → s2.deletionPending = true)

theorem stateLe_refl (s : HashBlockState) : stateLe s s :=
  ⟨id, id, id, id⟩

theorem stateLe_trans {s1 s2 s3 : HashBlockState} (h1 : stateLe s1 s2)
    (h2 : stateLe s2 s3) : stateLe s1 s3 :=
  ⟨fun h => h2.1 (h1.1 h), fun h => h2.2.1 (h1.2.1 h),
    fun h => h2.2.2.1 (h1.2.2.1 h), fun h => h2.2.2.2 (h1.2.2.2 h)⟩

theorem completeIfNextHash_of_no_data (b : HashBlockStorageMapBuilder)
    (h2 : List Nat) (hde : b.currentState.dataExists = false) :
    (b.completeIfNextHash h2).emitted = b.emitted ∧
    (b.completeIfNextHash h2).currentState.dataExists = false ∧
    (b.completeIfNextHash h2).currentHash = h2 := by
  rw [HashBlockStorageMapBuilder.completeIfNextHash]
  by_cases he : h2 = b.currentHash
  · rw [if_pos he]
    exact ⟨rfl, hde, he.symm⟩
  · rw [if_neg he, if_neg (by rw [hde]; exact Bool.false_ne_true)]
    exact ⟨rfl, rfl, rfl⟩

theorem addUse_same_fields (b : HashBlockStorageMapBuilder) (who : List Nat) :
    (b.addUse b.currentHash who).currentHash = b.currentHash ∧
    (b.addUse b.currentHash who).emitted = b.emitted ∧
    stateLe b.currentState (b.addUse b.currentHash who).currentState ∧
    (b.addUse b.currentHash who).currentState.dataExists =
      b.currentState.dataExists := by
  simp only [HashBlockStorageMapBuilder.addUse, completeIfNextHash_same]
  by_cases hav : b.currentState.IsAvailable = true
  · rw [if_pos hav]
    by_cases hwho : who = b.ownName
    · rw [if_pos hwho]
      refine ⟨by trivial, by trivial, ⟨id, fun _ => rfl, id, id⟩, by trivial⟩
    · rw [if_neg hwho]
      refine ⟨by trivial, by trivial, ⟨id, id, fun _ => rfl, id⟩, by trivial⟩
  · rw [if_neg hav]
    refine ⟨by trivial, by trivial, stateLe_refl _, by trivial⟩

theorem addDelete_same_fields (b : HashBlockStorageMapBuilder) :
    (b.addDelete b.currentHash).currentHash = b.currentHash ∧
    (b.addDelete b.currentHash).emitted = b.emitted ∧
    stateLe b.currentState (b.addDelete b.currentHash).currentState ∧
    (b.addDelete b.currentHash).currentState.dataExists =
      b.currentState.dataExists := by
  simp only [HashBlockStorageMapBuilder.addDelete, completeIfNextHash_same]
  refine ⟨by trivial, by trivial, ⟨id, id, id, fun _ => rfl⟩, by trivial⟩

theorem addData_same_fields (b : HashBlockStorageMapBuilder) :
    (b.addData b.currentHash).currentHash = b.currentHash ∧
    (b.addData b.currentHash).emitted = b.emitted ∧
    stateLe b.currentState (b.addData b.currentHash).currentState := by
  simp only [HashBlockStorageMapBuilder.addData, completeIfNextHash_same]
  refine ⟨by trivial, by trivial, ⟨fun _ => rfl, id, id, id⟩⟩

theorem processObj_block_entry {now : Int} {hash : List Nat} {e : BucketObj}
    (hshape : e.key = getBlockStringKey hash ∨
      ∃ r, e.key = getBlockStringKey hash ++ 46 :: r)
    (b : HashBlockStorageMapBuilder) (hcur : b.currentHash = hexEncode hash) :
    (processObj now b e).currentHash = hexEncode hash ∧
    (processObj now b e).emitted = b.emitted ∧
    stateLe b.currentState (processObj now b e).currentState := by
  obtain ⟨k, emt, ed⟩ := e
  rcases hshape with hk | ⟨r, hk⟩
  · simp only at hk
    subst hk
    rw [processObj_bareKey, ← hcur]
    rcases addData_same_fields b with ⟨h1, h2, h3⟩
    exact ⟨h1, h2, h3⟩
  · simp only at hk
    subst hk
    rcases processObj_dotKey now b hash r emt ed with heq | ⟨who, heq⟩ | heq
    · rw [heq]
      exact ⟨hcur, rfl, stateLe_refl _⟩
    · rw [heq, ← hcur]
      rcases addUse_same_fields b who with ⟨h1, h2, h3, -⟩
      exact ⟨h1, h2, h3⟩
    · rw [heq, ← hcur]
      rcases addDelete_same_fields b with ⟨h1, h2, h3, -⟩
      exact ⟨h1, h2, h3⟩

theorem fold_block_entries {now : Int} {hash : List Nat} {l : List BucketObj}
    (hsh : ∀ e ∈ l, e.key = getBlockStringKey hash ∨
      ∃ r, e.key = getBlockStringKey hash ++ 46 :: r)
    (b : HashBlockStorageMapBuilder) (hcur : b.currentHash = hexEncode hash) :
    (l.foldl (processObj now) b).currentHash = hexEncode hash ∧
    (l.foldl (processObj now) b).emitted = b.emitted ∧
    stateLe b.currentState (l.foldl (processObj now) b).currentState := by
  induction l generalizing b with
  | nil => exact ⟨hcur, rfl, stateLe_refl _⟩
  | cons x xs ih =>
    rw [List.foldl_cons]
    rcases processObj_block_entry (hsh x (List.mem_cons_self x xs)) b hcur with
      ⟨h1, h2, h3⟩
    rcases ih (fun e he => hsh e (List.mem_cons_of_mem x he)) (processObj now b x) h1
      with ⟨g1, g2, g3⟩
    exact ⟨g1, g2.trans h2, stateLe_trans h3 g3⟩

theorem fold_no_data {now : Int} {hash : List Nat} {l : List BucketObj}
    (hsh : ∀ e ∈ l, ∃ r, e.key = getBlockStringKey hash ++ 46 :: r)
    (b : HashBlockStorageMapBuilder)
    (hb : b.emitted = [] ∧ b.currentState.dataExists = false ∧
      (b.currentHash = [] ∨ b.currentHash = hexEncode hash)) :
    (l.foldl (processObj now) b).emitted = [] ∧
    (l.foldl (processObj now) b).currentState.dataExists = false ∧
    ((l.foldl (processObj now) b).currentHash = [] ∨
      (l.foldl (processObj now) b).currentHash = hexEncode hash) := by
  induction l generalizing b with
  | nil => exact hb
  | cons x xs ih =>
    rw [List.foldl_cons]
    refine ih (fun e he => hsh e (List.mem_cons_of_mem x he)) (processObj now b x) ?_
    obtain ⟨k, emt, ed⟩ := x
    rcases hsh _ (List.mem_cons_self _ xs) with ⟨r, hk⟩
    simp only at hk
    subst hk
    rcases processObj_dotKey now b hash r emt ed with heq | ⟨who, heq⟩ | heq
    · rw [heq]
      exact hb
    · rw [heq]
      rcases completeIfNextHash_of_no_data b (hexEncode hash) hb.2.1 with ⟨c1, c2, c3⟩
      simp only [HashBlockStorageMapBuilder.addUse]
      rw [if_neg]
      · exact ⟨c1.trans hb.1, c2, Or.inr c3⟩
      · rw [HashBlockState.IsAvailable, c2]
        simp
    · rw [heq]
      rcases completeIfNextHash_of_no_data b (hexEncode hash) hb.2.1 with ⟨c1, c2, c3⟩
      simp only [HashBlockStorageMapBuilder.addDelete]
      exact ⟨c1.trans hb.1, c2, Or.inr c3⟩

theorem processObj_useTag (now : Int) (b : HashBlockStorageMapBuilder)
    (hash p : List Nat) (mt : Int) (d : List Nat)
    (hcur : b.currentHash = hexEncode hash)
    (hdata : b.currentState.dataExists = true) :
    (processObj now b ⟨getATag hash BLOCK_USE_TAG p, mt, d⟩).currentState.deletionPending = true ∨
    (processObj now b ⟨getATag hash BLOCK_USE_TAG p, mt, d⟩).currentState.reservedByMe = true ∨
    (processObj now b ⟨getATag hash BLOCK_USE_TAG p, mt, d⟩).currentState.reservedByOthers = true := by
  simp only [processObj]
  have hcut : goCutPre folderPre (getATag hash BLOCK_USE_TAG p) =
      hexEncode hash ++ 46 :: (BLOCK_USE_TAG ++ 46 :: p) := by
    rw [getATag_eq, getBlockStringKey_eq, List.append_assoc]
    exact goCutPre_append _ _
  rw [hcut, splitOnDot_dot_append (noDot_hexEncode hash),
    splitOnDot_dot_append (by decide : noDot BLOCK_USE_TAG = true)]
  rw [if_neg (by simp)]
  have hcond : (hexEncode hash :: BLOCK_USE_TAG :: splitOnDot p).getD 1 [] =
      BLOCK_USE_TAG ∧ 3 ≤ (hexEncode hash :: BLOCK_USE_TAG :: splitOnDot p).length := by
    refine ⟨rfl, ?_⟩
    cases hs : splitOnDot p with
    | nil => exact absurd hs (splitOnDot_ne_nil p)
    | cons a as => simp
  rw [if_pos hcond]
  simp only [List.headI]
  simp only [HashBlockStorageMapBuilder.addUse]
  have hsame : b.completeIfNextHash (hexEncode hash) = b := by
    rw [← hcur]
    exact completeIfNextHash_same b
  rw [hsame]
  by_cases hav : b.currentState.IsAvailable = true
  · rw [if_pos hav]
    by_cases hwho : (hexEncode hash :: BLOCK_USE_TAG :: splitOnDot p).getD 2 [] = b.ownName
    · rw [if_pos hwho]
      exact Or.inr (Or.inl rfl)
    · rw [if_neg hwho]
      exact Or.inr (Or.inr rfl)
  · rw [if_neg hav]
    refine Or.inl ?_
    rw [HashBlockState.IsAvailable, hdata] at hav
    simpa using hav

theorem bare_ne_ext (b2 : List Nat) (x : List Nat) : b2 ≠ b2 ++ 46 :: x := by
  intro hcon
  have := congrArg List.length hcon
  simp at this

theorem gbhs_not_free {ownName : List Nat} {now2 : Int} {bkt2 : Bucket}
    {hash p : List Nat} {mt : Int} {d : List Nat}
    (hhash : hash ≠ [])
    (hmem : (⟨getATag hash BLOCK_USE_TAG p, mt, d⟩ : BucketObj) ∈ bkt2)
    (htags : ∀ e ∈ bkt2, isPre (getBlockStringKey hash) e.key = true →
      e.key = getBlockStringKey hash ∨
        ∃ r, e.key = getBlockStringKey hash ++ 46 :: r) :
    (GetBlockHashState ownName now2 bkt2 hash).IsAvailableAndFree = false := by
  have hshapeE : ∀ e ∈ bucketListing bkt2 (folderPre ++ HashToStringMapKey hash),
      e.key = getBlockStringKey hash ∨
        ∃ r, e.key = getBlockStringKey hash ++ 46 :: r := by
    intro e he
    rw [bucketListing] at he
    have h2 := mem_sortKeys.mp he
    have h3 := List.of_mem_filter h2
    exact htags e (List.mem_of_mem_filter h2) h3
  have huseE : (⟨getATag hash BLOCK_USE_TAG p, mt, d⟩ : BucketObj) ∈
      bucketListing bkt2 (folderPre ++ HashToStringMapKey hash) := by
    rw [bucketListing]
    refine mem_sortKeys.mpr (List.mem_filter.mpr ⟨hmem, ?_⟩)
    show isPre (getBlockStringKey hash) (getATag hash BLOCK_USE_TAG p) = true
    rw [getATag]
    exact isPre_append _ _
  have hpw := sortKeys_pairwise
    (bkt2.filter (fun e => isPre (folderPre ++ HashToStringMapKey hash) e.key))
  simp only [GetBlockHashState, IterateBlocksInternal]
  by_cases hbare : ∃ e ∈ bucketListing bkt2 (folderPre ++ HashToStringMapKey hash),
      e.key = getBlockStringKey hash
  · obtain ⟨bareE, hbmem, hbkey⟩ := hbare
    rcases hEeq : bucketListing bkt2 (folderPre ++ HashToStringMapKey hash) with
      - | ⟨e0, rest⟩
    · rw [hEeq] at hbmem
      cases hbmem
    · rw [bucketListing] at hEeq
      rw [hEeq] at hpw
      have he0mem : e0 ∈ bucketListing bkt2 (folderPre ++ HashToStringMapKey hash) := by
        rw [bucketListing, hEeq]
        exact List.mem_cons_self e0 rest
      have he0key : e0.key = getBlockStringKey hash := by
        rcases hshapeE e0 he0mem with hk | ⟨r, hk⟩
        · exact hk
        · exfalso
          rw [bucketListing, hEeq] at hbmem
          rcases List.mem_cons.mp hbmem with rfl | hbm2
          · exact bare_ne_ext _ _ (hbkey.symm.trans hk)
          · have hle := (List.pairwise_cons.mp hpw).1 bareE hbm2
            rw [hbkey, hk, lexLe] at hle
            rw [lexLt_self_append (by simp)] at hle
            exact Bool.false_ne_true hle
      have huseRest : (⟨getATag hash BLOCK_USE_TAG p, mt, d⟩ : BucketObj) ∈ rest := by
        rw [bucketListing, hEeq] at huseE
        rcases List.mem_cons.mp huseE with hcon | h2
        · exfalso
          have : e0.key = getATag hash BLOCK_USE_TAG p := by rw [← hcon]
          rw [he0key, getATag] at this
          exact bare_ne_ext _ _ this
        · exact h2
      obtain ⟨r1, r2, hr⟩ := List.append_of_mem huseRest
      rw [hr, List.foldl_cons, List.foldl_append, List.foldl_cons]
      have hc := completeIfNextHash_of_no_data
        (NewHashBlockStorageMapBuilder ownName) (hexEncode hash) rfl
      have hb1 : (processObj now2 (NewHashBlockStorageMapBuilder ownName) e0).currentHash
            = hexEncode hash ∧
          (processObj now2 (NewHashBlockStorageMapBuilder ownName) e0).emitted = [] ∧
          (processObj now2 (NewHashBlockStorageMapBuilder ownName) e0).currentState.dataExists
            = true := by
        obtain ⟨k0, m0, d0⟩ := e0
        simp only at he0key
        subst he0key
        rw [processObj_bareKey]
        simp only [HashBlockStorageMapBuilder.addData]
        refine ⟨hc.2.2, hc.1, by trivial⟩
      have hshr1 : ∀ e ∈ r1, e.key = getBlockStringKey hash ∨
          ∃ r, e.key = getBlockStringKey hash ++ 46 :: r := by
        intro e he
        refine hshapeE e ?_
        rw [bucketListing, hEeq, hr]
        exact List.mem_cons_of_mem _ (List.mem_append_left _ he)
      have hshr2 : ∀ e ∈ r2, e.key = getBlockStringKey hash ∨
          ∃ r, e.key = getBlockStringKey hash ++ 46 :: r := by
        intro e he
        refine hshapeE e ?_
        rw [bucketListing, hEeq, hr]
        exact List.mem_cons_of_mem _
          (List.mem_append_right _ (List.mem_cons_of_mem _ he))
      rcases fold_block_entries hshr1
        (processObj now2 (NewHashBlockStorageMapBuilder ownName) e0) hb1.1 with
        ⟨f1, f2, f3⟩
      set b2 := List.foldl (processObj now2)
        (processObj now2 (NewHashBlockStorageMapBuilder ownName) e0) r1 with hb2def
      have hdata2 : b2.currentState.dataExists = true := f3.1 hb1.2.2
      have hflag := processObj_useTag now2 b2 hash p mt d f1 hdata2
      rcases @processObj_block_entry now2 hash ⟨getATag hash BLOCK_USE_TAG p, mt, d⟩
        (Or.inr ⟨BLOCK_USE_TAG ++ 46 :: p, getATag_eq hash BLOCK_USE_TAG p⟩) b2 f1 with
        ⟨g1, g2, g3⟩
      set b3 := processObj now2 b2 ⟨getATag hash BLOCK_USE_TAG p, mt, d⟩ with hb3def
      rcases fold_block_entries hshr2 b3 g1 with ⟨k1, k2, k3⟩
      set b4 := List.foldl (processObj now2) b3 r2 with hb4def
      have hemit4 : b4.emitted = [] := by
        rw [k2, g2, f2, hb1.2.1]
      have hdata4 : b4.currentState.dataExists = true := k3.1 (g3.1 hdata2)
      have hflag4 : b4.currentState.deletionPending = true ∨
          b4.currentState.reservedByMe = true ∨
          b4.currentState.reservedByOthers = true := by
        rcases hflag with hfl | hfl | hfl
        · exact Or.inl (k3.2.2.2 hfl)
        · exact Or.inr (Or.inl (k3.2.1 hfl))
        · exact Or.inr (Or.inr (k3.2.2.1 hfl))
      rw [HashBlockStorageMapBuilder.close, HashBlockStorageMapBuilder.completeIfNextHash]
      rw [if_neg (fun hcon => hexEncode_ne_nil hhash (k1 ▸ hcon.symm))]
      rw [if_pos hdata4]
      simp only [hemit4, List.nil_append, List.map_cons, List.map_nil,
        List.getLast?_singleton, Option.getD_some]
      rcases hflag4 with hfl | hfl | hfl
      · rw [HashBlockState.IsAvailableAndFree, HashBlockState.IsAvailable, hfl]
        simp
      · rw [HashBlockState.IsAvailableAndFree, hfl]
        simp
      · rw [HashBlockState.IsAvailableAndFree, hfl]
        simp
  · push_neg at hbare
    have hdot : ∀ e ∈ bucketListing bkt2 (folderPre ++ HashToStringMapKey hash),
        ∃ r, e.key = getBlockStringKey hash ++ 46 :: r :=
      fun e he => (hshapeE e he).resolve_left (hbare e he)
    have hfin := @fold_no_data now2 hash
      (bucketListing bkt2 (folderPre ++ HashToStringMapKey hash)) hdot
      (NewHashBlockStorageMapBuilder ownName) ⟨rfl, rfl, Or.inl rfl⟩
    rcases completeIfNextHash_of_no_data _ [] hfin.2.1 with ⟨c1, -, -⟩
    rw [HashBlockStorageMapBuilder.close]
    rw [c1, hfin.1]
    rfl

/-- Claim C1: reclamation safety.  If at least one `used-by` tag for `H`
(written by any participant) is present in the bucket observed at the
checked-delete worker's re-query — whose keys under `H`'s prefix are the
bare key or proper tag keys — then the worker never performs the physical
delete of `H`'s block body: it deletes only when the re-queried state of
`H` satisfies `IsAvailableAndFree`, which a `used-by` tag rules out. -/
theorem C1_reclamation_safety (ownName p : List Nat) (now1 now2 : Int)
    (bkt1 bkt2 : Bucket) (hash : List Nat) (mt : Int) (d : List Nat)
    (hhash : hash ≠ [])
    (hmem : (⟨getATag hash BLOCK_USE_TAG p, mt, d⟩ : BucketObj) ∈ bkt2)
    (htags : ∀ e ∈ bkt2, isPre (getBlockStringKey hash) e.key = true →
      e.key = getBlockStringKey hash ∨
        ∃ r, e.key = getBlockStringKey hash ++ 46 :: r) :
    asyncCheckedDeletePerformsDelete ownName now1 now2 bkt1 bkt2 hash = false := by
  rw [asyncCheckedDeletePerformsDelete, gbhs_not_free hhash hmem htags,
    Bool.and_false]

/-- Claim C1's witness: at a concrete bucket holding the block body for hash
`[1]` and a `used-by` tag by participant `p`, the worker does not delete. -/
theorem C1_reclamation_safety_witness :
    asyncCheckedDeletePerformsDelete [] 0 100 []
      [⟨getBlockStringKey [1], 0, [9]⟩, ⟨getATag [1] BLOCK_USE_TAG [112], 0, []⟩]
      [1] = false := by
  refine C1_reclamation_safety [] [112] 0 100 []
    [⟨getBlockStringKey [1], 0, [9]⟩, ⟨getATag [1] BLOCK_USE_TAG [112], 0, []⟩]
    [1] 0 [] (by decide) (by decide) ?_
  intro e he hpre
  rcases List.mem_cons.mp he with rfl | he2
  · exact Or.inl rfl
  · rcases List.mem_cons.mp he2 with rfl | he3
    · exact Or.inr ⟨BLOCK_USE_TAG ++ 46 :: [112], rfl⟩
    · cases he3

/-! ### C5: enumeration order across the 256 shards -/

/-- One lowercase hex digit byte: `0`-`9` (48-57) or `a`-`f` (97-102). -/
def isHexDigitB (c : Nat) : Prop := (48 ≤ c ∧ c ≤ 57) ∨ (97 ≤ c ∧ c ≤ 102)

/-- A well-formed hash segment of a block key: 64 hex digit bytes. -/
def validHexKey (s : List Nat) : Prop := s.length = 64 ∧ ∀ c ∈ s, isHexDigitB c

theorem hexEncode_length (H : List Nat) : (hexEncode H).length = 2 * H.length := by
  induction H with
  | nil => rfl
  | cons b bs ih =>
    show ((hexByte b) ++ hexEncode bs).length = 2 * (bs.length + 1)
    rw [List.length_append, ih, hexByte]
    simp
    omega

theorem hexDigitByte_isHex {d : Nat} (h : d < 16) : isHexDigitB (hexDigitByte d) := by
  rw [hexDigitByte]
  by_cases h10 : d < 10
  · rw [if_pos h10]
    exact Or.inl ⟨by omega, by omega⟩
  · rw [if_neg h10]
    exact Or.inr ⟨by omega, by omega⟩

theorem mem_hexEncode_isHex {H : List Nat} (hH : ∀ b ∈ H, b < 256) :
    ∀ c ∈ hexEncode H, isHexDigitB c := by
  induction H with
  | nil => intro c hc; simp [hexEncode] at hc
  | cons b bs ih =>
    intro c hc
    have hb : b < 256 := hH b (List.mem_cons_self b bs)
    simp only [hexEncode, hexByte, List.mem_append, List.mem_cons] at hc
    rcases hc with (h | h | h) | h
    · rw [h]; exact hexDigitByte_isHex (Nat.div_lt_of_lt_mul (by omega))
    · rw [h]; exact hexDigitByte_isHex (Nat.mod_lt b (by omega))
    · simp at h
    · exact ih (fun x hx => hH x (List.mem_cons_of_mem b hx)) c h

theorem validHexKey_hexEncode {H : List Nat} (hlen : H.length = 32)
    (hH : ∀ b ∈ H, b < 256) : validHexKey (hexEncode H) :=
  ⟨by rw [hexEncode_length, hlen], mem_hexEncode_isHex hH⟩

theorem validHexKey_ne_nil {s : List Nat} (h : validHexKey s) : s ≠ [] := by
  intro hs
  rw [hs] at h
  exact absurd h.1 (by simp)

theorem fromHexDigit_le15 {c : Nat} (h : isHexDigitB c) : fromHexDigit c ≤ 15 := by
  rw [fromHexDigit]
  rcases h with ⟨h1, h2⟩ | ⟨h1, h2⟩
  · rw [if_pos (by omega)]; omega
  · rw [if_neg (by omega)]; omega

theorem fromHexDigit_lt {c c2 : Nat} (hc : isHexDigitB c) (hc2 : isHexDigitB c2)
    (h : c < c2) : fromHexDigit c < fromHexDigit c2 := by
  rw [fromHexDigit, fromHexDigit]
  rcases hc with ⟨h1, h2⟩ | ⟨h1, h2⟩ <;> rcases hc2 with ⟨g1, g2⟩ | ⟨g1, g2⟩
  · rw [if_pos (by omega), if_pos (by omega)]; omega
  · rw [if_pos (by omega), if_neg (by omega)]; omega
  · omega
  · rw [if_neg (by omega), if_neg (by omega)]; omega

theorem lexLt_cons_cons {a b : Nat} {x y : List Nat} :
    lexLt (a :: x) (b :: y) = true ↔ a < b ∨ (a = b ∧ lexLt x y = true) := by
  show (if a < b then true else if a = b then lexLt x y else false) = true ↔ _
  by_cases h1 : a < b
  · simp [h1]
  · by_cases h2 : a = b
    · simp [h1, h2]
    · simp [h1, h2]

/-- Hex decoding is strictly monotone on equal-even-length valid hex strings:
byte-lexicographic order of the encodings transfers to the decoded bytes. -/
theorem hexDecode_lt : ∀ (n : Nat) (s1 s2 : List Nat), s1.length = 2 * n →
    s2.length = 2 * n → (∀ c ∈ s1, isHexDigitB c) → (∀ c ∈ s2, isHexDigitB c) →
    lexLt s1 s2 = true → lexLt (hexDecode s1) (hexDecode s2) = true := by
  intro n
  induction n with
  | zero =>
    intro s1 s2 h1 h2 _ _ hlt
    rw [Nat.mul_zero] at h1 h2
    rw [List.length_eq_zero.mp h1, List.length_eq_zero.mp h2] at hlt
    exact absurd hlt (by decide)
  | succ n ih =>
    intro s1 s2 h1 h2 hv1 hv2 hlt
    rcases s1 with _ | ⟨a1, s1t⟩
    · simp at h1
    rcases s1t with _ | ⟨a2, t1⟩
    · simp at h1; omega
    rcases s2 with _ | ⟨b1, s2t⟩
    · simp at h2
    rcases s2t with _ | ⟨b2, t2⟩
    · simp at h2; omega
    have hlen1 : t1.length = 2 * n := by simp at h1; omega
    have hlen2 : t2.length = 2 * n := by simp at h2; omega
    have hva1 : isHexDigitB a1 := hv1 a1 (by simp)
    have hva2 : isHexDigitB a2 := hv1 a2 (by simp)
    have hvb1 : isHexDigitB b1 := hv2 b1 (by simp)
    have hvb2 : isHexDigitB b2 := hv2 b2 (by simp)
    have hvt1 : ∀ c ∈ t1, isHexDigitB c := fun c hc => hv1 c (by simp [hc])
    have hvt2 : ∀ c ∈ t2, isHexDigitB c := fun c hc => hv2 c (by simp [hc])
    show lexLt ((16 * fromHexDigit a1 + fromHexDigit a2) :: hexDecode t1)
      ((16 * fromHexDigit b1 + fromHexDigit b2) :: hexDecode t2) = true
    rcases lexLt_cons_cons.mp hlt with hab1 | ⟨rfl, hlt2⟩
    · refine lexLt_head ?_ _ _
      have hx := fromHexDigit_lt hva1 hvb1 hab1
      have hy := fromHexDigit_le15 hva2
      omega
    · rcases lexLt_cons_cons.mp hlt2 with hab2 | ⟨rfl, hlt3⟩
      · refine lexLt_head ?_ _ _
        have hx := fromHexDigit_lt hva2 hvb2 hab2
        omega
      · rw [lexLt_cons_cons]
        exact Or.inr ⟨rfl, ih t1 t2 hlen1 hlen2 hvt1 hvt2 hlt3⟩

/-- A string carrying the two-hex-digit shard prefix of byte `i` decodes to a
byte string starting with `i`. -/
theorem hexDecode_head_of_shard {i : Nat} (hi : i < 256) {s : List Nat}
    (hpre : isPre (hexEncode [i]) s = true) :
    ∃ t, hexDecode s = i :: t := by
  obtain ⟨u, rfl⟩ := exists_of_isPre hpre
  refine ⟨hexDecode u, ?_⟩
  have heq : hexEncode [i] ++ u = hexDigitByte (i / 16) :: hexDigitByte (i % 16) :: u := rfl
  rw [heq, hexDecode, fromHexDigit_hexDigitByte (Nat.div_lt_of_lt_mul (by omega)),
    fromHexDigit_hexDigitByte (Nat.mod_lt i (by omega))]
  congr 1
  omega

/-- An entry under the blocks folder with the shape the store writes: the bare
block key of a 32-byte hash, or that key followed by a `.`-separated tag. -/
def wfEntry (e : BucketObj) : Prop :=
  ∃ H r, e.key = getBlockStringKey H ++ r ∧ H.length = 32 ∧ (∀ x ∈ H, x < 256) ∧
    (r = [] ∨ ∃ r2, r = 46 :: r2)

/-- The hex segment `processObj`'s dispatch extracts from a listed key. -/
def entryHashStr (e : BucketObj) : List Nat :=
  (splitOnDot (goCutPre folderPre e.key)).headI

theorem entryHashStr_eq {e : BucketObj} {H r : List Nat}
    (hk : e.key = getBlockStringKey H ++ r)
    (hr : r = [] ∨ ∃ r2, r = 46 :: r2) :
    entryHashStr e = hexEncode H := by
  rw [entryHashStr, hk]
  rcases hr with rfl | ⟨r2, rfl⟩
  · rw [List.append_nil, getBlockStringKey_eq, goCutPre_append,
      splitOnDot_noDot (noDot_hexEncode H)]
    rfl
  · rw [getBlockStringKey_eq, List.append_assoc, goCutPre_append,
      splitOnDot_dot_append (noDot_hexEncode H)]
    rfl

theorem isPre_append_both (a b c : List Nat) : isPre (a ++ b) (a ++ c) = isPre b c := by
  induction a with
  | nil => rfl
  | cons x xs ih => simp [isPre, ih]

/-- Key order transfers to the order of the 64-character hex segments: within
the blocks folder the shared prefix cancels and the hex segments have equal
length, so any suffix after them cannot flip the comparison. -/
theorem hexSeg_le_of_key_le {H1 H2 r1 r2 : List Nat}
    (hl1 : H1.length = 32) (hl2 : H2.length = 32)
    (hk : lexLe (getBlockStringKey H1 ++ r1) (getBlockStringKey H2 ++ r2) = true) :
    lexLe (hexEncode H1) (hexEncode H2) = true := by
  rw [lexLe, Bool.not_eq_true'] at hk ⊢
  cases hlt : lexLt (hexEncode H2) (hexEncode H1) with
  | false => rfl
  | true =>
    exfalso
    have hlen : (hexEncode H2).length = (hexEncode H1).length := by
      rw [hexEncode_length, hexEncode_length, hl1, hl2]
    have h2 := lexLt_append_same_len hlen hlt r2 r1
    have h3 : lexLt (folderPre ++ (hexEncode H2 ++ r2))
        (folderPre ++ (hexEncode H1 ++ r1)) = true := by
      rw [lexLt_append_left]
      exact h2
    rw [getBlockStringKey_eq, getBlockStringKey_eq, List.append_assoc,
      List.append_assoc] at hk
    rw [hk] at h3
    exact Bool.false_ne_true h3

theorem entryHashStr_le {e1 e2 : BucketObj} (h1 : wfEntry e1) (h2 : wfEntry e2)
    (hk : lexLe e1.key e2.key = true) :
    lexLe (entryHashStr e1) (entryHashStr e2) = true := by
  obtain ⟨H1, r1, hk1, hl1, _, hr1⟩ := h1
  obtain ⟨H2, r2, hk2, hl2, _, hr2⟩ := h2
  rw [entryHashStr_eq hk1 hr1, entryHashStr_eq hk2 hr2]
  rw [hk1, hk2] at hk
  exact hexSeg_le_of_key_le hl1 hl2 hk

theorem processObj_wf_cases (now : Int) (b : HashBlockStorageMapBuilder)
    (H : List Nat) (mt : Int) (d : List Nat) (r : List Nat)
    (hr : r = [] ∨ ∃ r2, r = 46 :: r2) :
    processObj now b ⟨getBlockStringKey H ++ r, mt, d⟩ = b ∨
    processObj now b ⟨getBlockStringKey H ++ r, mt, d⟩ = b.addData (hexEncode H) ∨
    (∃ who, processObj now b ⟨getBlockStringKey H ++ r, mt, d⟩ =
      b.addUse (hexEncode H) who) ∨
    processObj now b ⟨getBlockStringKey H ++ r, mt, d⟩ =
      b.addDelete (hexEncode H) := by
  rcases hr with rfl | ⟨r2, rfl⟩
  · rw [List.append_nil]
    exact Or.inr (Or.inl (processObj_bareKey now b H mt d))
  · rcases processObj_dotKey now b H r2 mt d with h | h | h
    · exact Or.inl h
    · exact Or.inr (Or.inr (Or.inl h))
    · exact Or.inr (Or.inr (Or.inr h))

theorem completeIfNextHash_flush {b : HashBlockStorageMapBuilder} {h : List Nat}
    (hne : h ≠ b.currentHash) (hde : b.currentState.dataExists = true) :
    (b.completeIfNextHash h).currentHash = h ∧
    (b.completeIfNextHash h).emitted =
      b.emitted ++ [⟨hexDecode b.currentHash, b.currentState⟩] := by
  rw [HashBlockStorageMapBuilder.completeIfNextHash, if_neg hne, if_pos hde]
  exact ⟨rfl, rfl⟩

theorem completeIfNextHash_noflush {b : HashBlockStorageMapBuilder} {h : List Nat}
    (hne : h ≠ b.currentHash) (hde : b.currentState.dataExists = false) :
    (b.completeIfNextHash h).currentHash = h ∧
    (b.completeIfNextHash h).emitted = b.emitted := by
  rw [HashBlockStorageMapBuilder.completeIfNextHash, if_neg hne,
    if_neg (by rw [hde]; exact Bool.false_ne_true)]
  exact ⟨rfl, rfl⟩

theorem addData_fields2 (b : HashBlockStorageMapBuilder) (h : List Nat) :
    (b.addData h).currentHash = (b.completeIfNextHash h).currentHash ∧
    (b.addData h).emitted = (b.completeIfNextHash h).emitted :=
  ⟨rfl, rfl⟩

theorem addDelete_fields2 (b : HashBlockStorageMapBuilder) (h : List Nat) :
    (b.addDelete h).currentHash = (b.completeIfNextHash h).currentHash ∧
    (b.addDelete h).emitted = (b.completeIfNextHash h).emitted :=
  ⟨rfl, rfl⟩

theorem addUse_fields2 (b : HashBlockStorageMapBuilder) (h who : List Nat) :
    (b.addUse h who).currentHash = (b.completeIfNextHash h).currentHash ∧
    (b.addUse h who).emitted = (b.completeIfNextHash h).emitted := by
  simp only [HashBlockStorageMapBuilder.addUse]
  by_cases hav : (b.completeIfNextHash h).currentState.IsAvailable = true
  · rw [if_pos hav]
    by_cases hwho : who = (b.completeIfNextHash h).ownName
    · rw [if_pos hwho]
      exact ⟨rfl, rfl⟩
    · rw [if_neg hwho]
      exact ⟨rfl, rfl⟩
  · rw [if_neg hav]
    exact ⟨rfl, rfl⟩

/-- Invariant of one shard pass: either the builder is still pristine, or its
current hash segment is a valid in-prefix hex key, everything emitted so far is
strictly increasing, below the current hash, and itself decoded from a valid
in-prefix hex key. -/
def shardInv (pre : List Nat) (b : HashBlockStorageMapBuilder) : Prop :=
  (b.currentHash = [] ∧ b.currentState = HashBlockState.empty ∧ b.emitted = []) ∨
  (validHexKey b.currentHash ∧ isPre pre b.currentHash = true ∧
    List.Chain' (fun x y => lexLt x.hash y.hash = true) b.emitted ∧
    (∀ x ∈ b.emitted, lexLt x.hash (hexDecode b.currentHash) = true) ∧
    (∀ x ∈ b.emitted, ∃ s, validHexKey s ∧ isPre pre s = true ∧
      x.hash = hexDecode s))

theorem shardInv_complete {pre h : List Nat} {b : HashBlockStorageMapBuilder}
    (hval : validHexKey h) (hpre : isPre pre h = true) (hinv : shardInv pre b)
    (hord : b.currentHash = [] ∨ lexLe b.currentHash h = true) :
    shardInv pre (b.completeIfNextHash h) ∧
    (b.completeIfNextHash h).currentHash = h := by
  by_cases he : h = b.currentHash
  · subst he
    rw [completeIfNextHash_same]
    exact ⟨hinv, rfl⟩
  · rw [shardInv] at hinv
    rcases hinv with ⟨h1, h2, h3⟩ | ⟨v1, v2, v3, v4, v5⟩
    · have hde : b.currentState.dataExists = false := by
        rw [h2]
        rfl
      obtain ⟨hc, hemit⟩ := completeIfNextHash_noflush he hde
      refine ⟨?_, hc⟩
      rw [shardInv, hc, hemit, h3]
      refine Or.inr ⟨hval, hpre, List.chain'_nil, ?_, ?_⟩
      · intro x hx; simp at hx
      · intro x hx; simp at hx
    · have hbne : b.currentHash ≠ [] := validHexKey_ne_nil v1
      have hle : lexLe b.currentHash h = true := hord.resolve_left hbne
      have hlt : lexLt b.currentHash h = true := by
        rw [lexLe, Bool.not_eq_true'] at hle
        rcases eq_or_lexLt_of_not hle with heq | hlt2
        · exact absurd heq he
        · exact hlt2
      have hdlt : lexLt (hexDecode b.currentHash) (hexDecode h) = true := by
        refine hexDecode_lt 32 _ _ ?_ ?_ v1.2 hval.2 hlt
        · rw [v1.1]
        · rw [hval.1]
      by_cases hde : b.currentState.dataExists = true
      · obtain ⟨hc, hemit⟩ := completeIfNextHash_flush he hde
        refine ⟨?_, hc⟩
        rw [shardInv, hc, hemit]
        refine Or.inr ⟨hval, hpre, ?_, ?_, ?_⟩
        · rw [List.chain'_append]
          refine ⟨v3, List.chain'_singleton _, ?_⟩
          intro x hx y hy
          have hx2 := List.mem_of_mem_getLast? hx
          have hy2 : y = (⟨hexDecode b.currentHash, b.currentState⟩ : HashAndState) := by
            simp at hy
            exact hy.symm
          rw [hy2]
          exact v4 x hx2
        · intro x hx
          rcases List.mem_append.mp hx with hx2 | hx2
          · exact lexLt_trans (v4 x hx2) hdlt
          · have hx3 : x = (⟨hexDecode b.currentHash, b.currentState⟩ : HashAndState) := by
              simp at hx2
              exact hx2
            rw [hx3]
            exact hdlt
        · intro x hx
          rcases List.mem_append.mp hx with hx2 | hx2
          · exact v5 x hx2
          · have hx3 : x = (⟨hexDecode b.currentHash, b.currentState⟩ : HashAndState) := by
              simp at hx2
              exact hx2
            exact ⟨b.currentHash, v1, v2, by rw [hx3]⟩
      · have hde2 : b.currentState.dataExists = false := by
          cases hx : b.currentState.dataExists
          · rfl
          · exact absurd hx hde
        obtain ⟨hc, hemit⟩ := completeIfNextHash_noflush he hde2
        refine ⟨?_, hc⟩
        rw [shardInv, hc, hemit]
        refine Or.inr ⟨hval, hpre, v3, ?_, v5⟩
        intro x hx
        exact lexLt_trans (v4 x hx) hdlt

theorem shardInv_method {pre h : List Nat} {b b2 : HashBlockStorageMapBuilder}
    (hval : validHexKey h) (hpre : isPre pre h = true) (hinv : shardInv pre b)
    (hord : b.currentHash = [] ∨ lexLe b.currentHash h = true)
    (hch : b2.currentHash = (b.completeIfNextHash h).currentHash)
    (hem : b2.emitted = (b.completeIfNextHash h).emitted) :
    shardInv pre b2 ∧ b2.currentHash = h := by
  obtain ⟨hinv2, hcur⟩ := shardInv_complete hval hpre hinv hord
  refine ⟨?_, by rw [hch, hcur]⟩
  rw [shardInv] at hinv2 ⊢
  rcases hinv2 with ⟨h1, _, _⟩ | ⟨v1, v2, v3, v4, v5⟩
  · exact absurd (hcur.symm.trans h1) (validHexKey_ne_nil hval)
  · rw [hch, hem]
    exact Or.inr ⟨v1, v2, v3, v4, v5⟩

/-- Folding the sorted entries of one shard through `processObj` preserves the
shard invariant: each entry either leaves the builder alone or advances it to
the entry's own hex segment, which cannot go backwards because the listing is
sorted by key. -/
theorem shardInv_fold (pre : List Nat) (now : Int) :
    ∀ (l : List BucketObj) (b : HashBlockStorageMapBuilder),
      (∀ e ∈ l, wfEntry e) →
      List.Pairwise (fun a c => lexLe a.key c.key = true) l →
      shardInv pre b →
      (∀ e ∈ l, b.currentHash = [] ∨ lexLe b.currentHash (entryHashStr e) = true) →
      (∀ e ∈ l, isPre pre (entryHashStr e) = true) →
      (∀ e ∈ l, validHexKey (entryHashStr e)) →
      shardInv pre (l.foldl (processObj now) b) := by
  intro l
  induction l with
  | nil =>
    intro b _ _ hinv _ _ _
    exact hinv
  | cons e xs ih =>
    intro b hwf hpw hinv hord hpres hvals
    obtain ⟨k, mt, d⟩ := e
    obtain ⟨H, r, hk, hHl, hHb, hr⟩ := hwf _ (List.mem_cons_self _ _)
    have hk2 : k = getBlockStringKey H ++ r := hk
    subst hk2
    rw [List.foldl_cons]
    have hEstr : entryHashStr ⟨getBlockStringKey H ++ r, mt, d⟩ = hexEncode H :=
      entryHashStr_eq rfl hr
    have hwfe : wfEntry (⟨getBlockStringKey H ++ r, mt, d⟩ : BucketObj) :=
      ⟨H, r, rfl, hHl, hHb, hr⟩
    have hvalH : validHexKey (hexEncode H) := by
      have h0 := hvals _ (List.mem_cons_self _ _)
      rw [hEstr] at h0
      exact h0
    have hpreH : isPre pre (hexEncode H) = true := by
      have h0 := hpres _ (List.mem_cons_self _ _)
      rw [hEstr] at h0
      exact h0
    have hordH : b.currentHash = [] ∨ lexLe b.currentHash (hexEncode H) = true := by
      have h0 := hord _ (List.mem_cons_self _ _)
      rw [hEstr] at h0
      exact h0
    have hwfxs : ∀ x ∈ xs, wfEntry x := fun x hx => hwf x (List.mem_cons_of_mem _ hx)
    have hpwxs := (List.pairwise_cons.mp hpw).2
    have hpwhead := (List.pairwise_cons.mp hpw).1
    have hordxs : ∀ x ∈ xs, lexLe (hexEncode H) (entryHashStr x) = true := by
      intro x hx
      have h0 := entryHashStr_le hwfe (hwfxs x hx) (hpwhead x hx)
      rw [hEstr] at h0
      exact h0
    have hpresxs : ∀ x ∈ xs, isPre pre (entryHashStr x) = true :=
      fun x hx => hpres x (List.mem_cons_of_mem _ hx)
    have hvalsxs : ∀ x ∈ xs, validHexKey (entryHashStr x) :=
      fun x hx => hvals x (List.mem_cons_of_mem _ hx)
    rcases processObj_wf_cases now b H mt d r hr with hc | hc | ⟨who, hc⟩ | hc
    · rw [hc]
      exact ih b hwfxs hpwxs hinv
        (fun x hx => hord x (List.mem_cons_of_mem _ hx)) hpresxs hvalsxs
    · rw [hc]
      have hf := addData_fields2 b (hexEncode H)
      obtain ⟨hinv2, hcur2⟩ := shardInv_method hvalH hpreH hinv hordH hf.1 hf.2
      refine ih _ hwfxs hpwxs hinv2 ?_ hpresxs hvalsxs
      intro x hx
      right
      rw [hcur2]
      exact hordxs x hx
    · rw [hc]
      have hf := addUse_fields2 b (hexEncode H) who
      obtain ⟨hinv2, hcur2⟩ := shardInv_method hvalH hpreH hinv hordH hf.1 hf.2
      refine ih _ hwfxs hpwxs hinv2 ?_ hpresxs hvalsxs
      intro x hx
      right
      rw [hcur2]
      exact hordxs x hx
    · rw [hc]
      have hf := addDelete_fields2 b (hexEncode H)
      obtain ⟨hinv2, hcur2⟩ := shardInv_method hvalH hpreH hinv hordH hf.1 hf.2
      refine ih _ hwfxs hpwxs hinv2 ?_ hpresxs hvalsxs
      intro x hx
      right
      rw [hcur2]
      exact hordxs x hx

/-- Closing a builder that satisfies the shard invariant yields a strictly
increasing emission list whose every element decodes a valid in-prefix key. -/
theorem shardInv_close {pre : List Nat} {b : HashBlockStorageMapBuilder}
    (hinv : shardInv pre b) :
    List.Chain' (fun x y => lexLt x.hash y.hash = true) b.close.emitted ∧
    ∀ x ∈ b.close.emitted, ∃ s, validHexKey s ∧ isPre pre s = true ∧
      x.hash = hexDecode s := by
  rw [HashBlockStorageMapBuilder.close]
  rw [shardInv] at hinv
  rcases hinv with ⟨h1, h2, h3⟩ | ⟨v1, v2, v3, v4, v5⟩
  · rw [← h1, completeIfNextHash_same, h3]
    refine ⟨List.chain'_nil, ?_⟩
    intro x hx
    simp at hx
  · have hne : ([] : List Nat) ≠ b.currentHash :=
      fun h => validHexKey_ne_nil v1 h.symm
    by_cases hde : b.currentState.dataExists = true
    · obtain ⟨_, hemit⟩ := completeIfNextHash_flush hne hde
      rw [hemit]
      refine ⟨?_, ?_⟩
      · rw [List.chain'_append]
        refine ⟨v3, List.chain'_singleton _, ?_⟩
        intro x hx y hy
        have hx2 := List.mem_of_mem_getLast? hx
        have hy2 : y = (⟨hexDecode b.currentHash, b.currentState⟩ : HashAndState) := by
          simp at hy
          exact hy.symm
        rw [hy2]
        exact v4 x hx2
      · intro x hx
        rcases List.mem_append.mp hx with hx2 | hx2
        · exact v5 x hx2
        · have hx3 : x = (⟨hexDecode b.currentHash, b.currentState⟩ : HashAndState) := by
            simp at hx2
            exact hx2
          exact ⟨b.currentHash, v1, v2, by rw [hx3]⟩
    · have hde2 : b.currentState.dataExists = false := by
        cases hx : b.currentState.dataExists
        · rfl
        · exact absurd hx hde
      obtain ⟨_, hemit⟩ := completeIfNextHash_noflush hne hde2
      rw [hemit]
      exact ⟨v3, v5⟩

/-- One shard's output is strictly increasing, and every emitted hash decodes
a valid 64-hex-digit key carrying the shard's prefix. -/
theorem shard_output {ownName : List Nat} {now : Int} {bkt : Bucket}
    (pre : List Nat) (hlenpre : pre.length ≤ 64)
    (hwfb : ∀ e ∈ bkt, isPre folderPre e.key = true → wfEntry e) :
    List.Chain' (fun x y => lexLt x.hash y.hash = true)
      (IterateBlocksInternal ownName now bkt pre) ∧
    ∀ x ∈ IterateBlocksInternal ownName now bkt pre,
      ∃ s, validHexKey s ∧ isPre pre s = true ∧ x.hash = hexDecode s := by
  have hents : ∀ e ∈ bucketListing bkt (folderPre ++ pre),
      wfEntry e ∧ isPre pre (entryHashStr e) = true ∧
        validHexKey (entryHashStr e) := by
    intro e he
    rw [bucketListing] at he
    have he2 := mem_sortKeys.mp he
    obtain ⟨hee, hkey⟩ := List.mem_filter.mp he2
    have hwfe : wfEntry e := hwfb e hee (isPre_of_append_isPre hkey)
    obtain ⟨H, r, hk, hHl, hHb, hr⟩ := hwfe
    have hstr : entryHashStr e = hexEncode H := entryHashStr_eq hk hr
    have hval : validHexKey (hexEncode H) := validHexKey_hexEncode hHl hHb
    refine ⟨⟨H, r, hk, hHl, hHb, hr⟩, ?_, ?_⟩
    · rw [hstr]
      have h1 : isPre (folderPre ++ pre) (folderPre ++ (hexEncode H ++ r)) = true := by
        have h0 := hkey
        rw [hk, getBlockStringKey_eq, List.append_assoc] at h0
        exact h0
      rw [isPre_append_both] at h1
      refine isPre_of_isPre_append h1 ?_
      rw [hexEncode_length, hHl]
      omega
    · rw [hstr]
      exact hval
  have hfold : shardInv pre
      ((bucketListing bkt (folderPre ++ pre)).foldl (processObj now)
        (NewHashBlockStorageMapBuilder ownName)) := by
    refine shardInv_fold pre now _ _ (fun e he => (hents e he).1) ?_ ?_
      (fun e he => Or.inl rfl) (fun e he => (hents e he).2.1)
      (fun e he => (hents e he).2.2)
    · rw [bucketListing]
      exact sortKeys_pairwise _
    · rw [shardInv]
      exact Or.inl ⟨rfl, rfl, rfl⟩
  exact shardInv_close hfold

/-- A flatten of chains is a chain when earlier lists sit entirely below later
ones (the ordered channel-of-channels argument). -/
theorem chain_of_flatten {α : Type} {lt : α → α → Prop} :
    ∀ (L : List (List α)), (∀ l ∈ L, List.Chain' lt l) →
      List.Pairwise (fun l1 l2 => ∀ x ∈ l1, ∀ y ∈ l2, lt x y) L →
      List.Chain' lt L.flatten := by
  intro L
  induction L with
  | nil =>
    intro _ _
    exact List.chain'_nil
  | cons l L2 ih =>
    intro hch hpw
    rw [List.flatten_cons, List.chain'_append]
    rcases List.pairwise_cons.mp hpw with ⟨hhead, htail⟩
    refine ⟨hch l (List.mem_cons_self l L2),
      ih (fun m hm => hch m (List.mem_cons_of_mem l hm)) htail, ?_⟩
    intro x hx y hy
    have hx2 : x ∈ l := List.mem_of_mem_getLast? hx
    have hy2 : y ∈ L2.flatten := List.mem_of_mem_head? hy
    rcases List.mem_flatten.mp hy2 with ⟨m, hm, hym⟩
    exact hhead m hm x hx2 y hym

/-- Everything emitted by shard `i` is strictly below everything emitted by a
later shard `j`: the decoded hashes start with bytes `i < j`. -/
theorem cross_shard {i j : Nat} (hi : i < 256) (hj : j < 256) (hij : i < j)
    {x y : HashAndState}
    (hx : ∃ s, validHexKey s ∧ isPre (hexEncode [i]) s = true ∧
      x.hash = hexDecode s)
    (hy : ∃ s, validHexKey s ∧ isPre (hexEncode [j]) s = true ∧
      y.hash = hexDecode s) :
    lexLt x.hash y.hash = true := by
  obtain ⟨s1, _, hp1, hd1⟩ := hx
  obtain ⟨s2, _, hp2, hd2⟩ := hy
  obtain ⟨t1, ht1⟩ := hexDecode_head_of_shard hi hp1
  obtain ⟨t2, ht2⟩ := hexDecode_head_of_shard hj hp2
  rw [hd1, hd2, ht1, ht2]
  exact lexLt_head hij _ _

/-- C5: on a bucket whose keys under `blocks/` have the shape the store
writes (bare 32-byte-hash block keys, possibly followed by a `.`-separated
tag), a full enumeration pass — `IterateBlocks` over all 256 shards with the
shard outputs merged in shard order through the ordered channel-of-channels —
emits its `(hash, state)` records with strictly increasing hashes in
byte-lexicographic order. -/
theorem C5_enumeration_order (ownName : List Nat) (now : Int) (bkt : Bucket)
    (hwfb : ∀ e ∈ bkt, isPre folderPre e.key = true → wfEntry e) :
    List.Chain' (fun x y => lexLt x.hash y.hash = true)
      (IterateBlocks ownName now bkt) := by
  rw [IterateBlocks]
  apply chain_of_flatten
  · intro l hl
    rcases List.mem_map.mp hl with ⟨i, _, rfl⟩
    refine (shard_output (HashToStringMapKey [i]) ?_ hwfb).1
    show (hexEncode [i]).length ≤ 64
    rw [hexEncode_length]
    simp
  · rw [List.pairwise_map, List.pairwise_iff_getElem]
    intro a c ha hc hac
    rw [List.length_range] at ha hc
    rw [List.getElem_range, List.getElem_range]
    intro x hx y hy
    have hl2 : (HashToStringMapKey [a]).length ≤ 64 := by
      show (hexEncode [a]).length ≤ 64
      rw [hexEncode_length]
      simp
    have hl3 : (HashToStringMapKey [c]).length ≤ 64 := by
      show (hexEncode [c]).length ≤ 64
      rw [hexEncode_length]
      simp
    have hxs := (shard_output (HashToStringMapKey [a]) hl2 hwfb).2 x hx
    have hys := (shard_output (HashToStringMapKey [c]) hl3 hwfb).2 y hy
    exact cross_shard ha hc hac hxs hys

theorem C5_enumeration_order_witness :
    List.Chain' (fun x y => lexLt x.hash y.hash = true)
      (IterateBlocks [7] 0
        [⟨getBlockStringKey (List.replicate 32 255), 0, [1]⟩,
         ⟨getBlockStringKey (List.replicate 32 0), 0, [2]⟩]) := by
  apply C5_enumeration_order
  intro e he _
  rcases List.mem_cons.mp he with rfl | he2
  · exact ⟨List.replicate 32 255, [], (List.append_nil _).symm,
      List.length_replicate 32 255,
      fun x hx => by rw [List.eq_of_mem_replicate hx]; omega, Or.inl rfl⟩
  · rcases List.mem_cons.mp he2 with rfl | he3
    · exact ⟨List.replicate 32 0, [], (List.append_nil _).symm,
        List.length_replicate 32 0,
        fun x hx => by rw [List.eq_of_mem_replicate hx]; omega, Or.inl rfl⟩
    · simp at he3
